import Mathlib

/-!
Verification of the i18n statistics tool (`i18nstats.py`).

The development shallowly embeds the core of the program:
* the translation comparator (`get_translatable_strings`, `check_duplicate_codes`,
  `load_translatable_dict`, `should_ignore`, `compare_translations`),
* the canonical JSON formatter (`format_json`, built on `json.dumps` with
  `ensure_ascii=False, sort_keys=True, indent=4, separators=(",", ": ")`),
* a model of `json.loads` restricted to the shapes of data this repository uses
  (integers instead of arbitrary numbers; no floats),
* the error counters and process exit status of `main`.

Python dictionaries are modelled as insertion-ordered association lists, Python
strings as `String` (comparator side) or `List Char` (formatter side, where
code-point level reasoning is needed).
-/

namespace I18n

/-- A card record as decoded from a JSON file: a Python dict, modelled as an
insertion-ordered association list from field name to string value.  Keys of a
Python dict are unique; the model does not rely on that. -/
abbrev Record := List (String × String)

/-- A per-record mapping from field name to string value. -/
abbrev Fields := List (String × String)

/-- A record code: `c.get("code")` in Python returns `None` when the key is
absent, hence `Option String`. -/
abbrev Code := Option String

/-- A field mapping `code -> (field -> value)`, as built by
`load_translatable_dict`: a Python dict in insertion order. -/
abbrev TransDict := List (Code × Fields)

/-- The literal key `"code"`. -/
def codeKey : String := "code"

/-- The fixed whitelist of translatable fields (`translatable_fields` in
`get_translatable_strings`).  Python iterates it as a set, whose iteration
order is unspecified; the model fixes the textual order of the set literal.
Only the contents of the resulting mapping matter to any claim. -/
def translatable_fields : List String :=
  ["flavor", "name", "subname", "customization_text", "customization_change",
   "text", "traits", "back_name", "back_flavor", "back_text", "back_traits",
   "slot"]

/-- `get_translatable_strings` (lines 190-202): project a record onto the
whitelist, and report whether the record has keys that are neither whitelisted
nor `"code"` (the boolean `len(extra) != 0`). -/
def get_translatable_strings (item : Record) : Fields × Bool :=
  let extra := (item.map Prod.fst).filter
    (fun k => !(translatable_fields.contains k) && k != codeKey)
  let result := translatable_fields.filterMap
    (fun f => (item.lookup f).map (fun v => (f, v)))
  (result, extra.length != 0)

/-- `check_duplicate_codes` (lines 204-211): one warning is printed for every
record whose `code` was already seen earlier in the list.  The model returns
the number of warnings printed. -/
def check_duplicate_codes (file_data : List Record) : Nat :=
  (file_data.foldl
    (fun (acc : List Code × Nat) c =>
      let code := c.lookup codeKey
      if acc.1.contains code then (acc.1, acc.2 + 1) else (code :: acc.1, acc.2))
    ([], 0)).2

/-- Accumulator of the record loop in `load_translatable_dict`
(lines 227-244): the mapping built so far, the running `total`, and the number
of `file already has an entry` warnings printed by the loop. -/
structure LoadAcc where
  translatables : TransDict
  total : Nat
  warnings : Nat

/-- One iteration of the record loop of `load_translatable_dict`
(lines 230-243): a record whose code is already a key of the mapping is
skipped with a warning; otherwise its whitelisted fields are extracted, the
entry is added when non-empty, and `total` grows by the number of extracted
fields. -/
def load_step (acc : LoadAcc) (c : Record) : LoadAcc :=
  let code := c.lookup codeKey
  match acc.translatables.lookup code with
  | some _ => { acc with warnings := acc.warnings + 1 }
  | none =>
    let tr := (get_translatable_strings c).1
    { translatables :=
        if tr.length > 0 then acc.translatables ++ [(code, tr)]
        else acc.translatables
      total := acc.total + tr.length
      warnings := acc.warnings }

/-- `load_translatable_dict` (lines 218-249) applied to decoded file data:
returns the field mapping and the total number of translatable field values. -/
def load_translatable_dict (file_data : List Record) : TransDict × Nat :=
  let r := file_data.foldl load_step ⟨[], 0, 0⟩
  (r.translatables, r.total)

/-- The number of `file already has an entry` warnings printed by the record
loop of `load_translatable_dict` over the given data. -/
def load_loop_warnings (file_data : List Record) : Nat :=
  (file_data.foldl load_step ⟨[], 0, 0⟩).warnings

/-- `should_ignore` (lines 251-264).  In `compare_translations` the ignore
dictionary is always a dict (an absent ignore file loads as the empty dict),
so the `is None` branch is unreachable and not modelled. -/
def should_ignore (ignore_dict : TransDict) (code : Code) (field : String)
    (value : String) : Bool :=
  match ignore_dict.lookup code with
  | none => false
  | some fs =>
    match fs.lookup field with
    | none => false
    | some v => v == value

/-- The stats record built by `compare_translations` (class `i18nStats`). -/
structure i18nStats where
  total : Nat
  translated : Nat
  untranslated : TransDict
  missing : TransDict
deriving Repr, DecidableEq

/-- One iteration of the inner field loop of `compare_translations`
(lines 297-307), acting on `(translated so far, untranslated so far)` for one
source pair `fv = (field, value)`. -/
def classify_step (ignore_dict : TransDict) (code : Code)
    (i18n_strings : Fields) (acc : Nat × Fields) (fv : String × String) :
    Nat × Fields :=
  match i18n_strings.lookup fv.1 with
  | some lv =>
    if should_ignore ignore_dict code fv.1 lv then (acc.1 + 1, acc.2)
    else if fv.2 == lv && fv.2 != "" then (acc.1, acc.2 ++ [(fv.1, fv.2)])
    else (acc.1 + 1, acc.2)
  | none => (acc.1, acc.2 ++ [(fv.1, fv.2)])

/-- The inner field loop of `compare_translations` (lines 297-307): classify
every `(field, value)` of the source entry against the localized entry,
returning the number of fields counted as translated and the `untranslated`
dict built for this code (in source field order). -/
def classify_fields (ignore_dict : TransDict) (code : Code)
    (en_strings i18n_strings : Fields) : Nat × Fields :=
  en_strings.foldl (classify_step ignore_dict code i18n_strings) (0, [])

/-- One iteration of the outer code loop of `compare_translations`
(lines 290-313), acting on `(translated, untranslated, working source dict)`:
a localized code absent from the working source dict is skipped; otherwise the
source fields are classified, a non-empty untranslated entry is recorded, and
the code is popped from the working source dict. -/
def compare_step (ignore_dict : TransDict) (acc : Nat × TransDict × TransDict)
    (e : Code × Fields) : Nat × TransDict × TransDict :=
  match acc.2.2.lookup e.1 with
  | none => acc
  | some en_strings =>
    let r := classify_fields ignore_dict e.1 en_strings e.2
    (acc.1 + r.1,
     if r.2.length > 0 then acc.2.1 ++ [(e.1, r.2)] else acc.2.1,
     acc.2.2.eraseP (fun kv => kv.1 == e.1))

/-- The comparison core of `compare_translations` (lines 279-322), acting on
already-loaded dictionaries: `total` comes from loading the source file, then
the localized entries are folded over, and whatever survives of the working
source dict becomes `missing`. -/
def compare_core (en_dict i18n_dict ignore_dict : TransDict) (total : Nat) :
    i18nStats :=
  let r := i18n_dict.foldl (compare_step ignore_dict) (0, [], en_dict)
  ⟨total, r.1, r.2.1, r.2.2⟩

/-- What `load_translatable_dict` finds on disk for one path.  `invalid`
covers a readable file for which `load_json_file` produces no data (malformed
JSON, or content containing the banned `<sup>` marker). -/
inductive FileRead where
  | absent : FileRead
  | invalid : FileRead
  | content (records : List Record) : FileRead

/-- `load_translatable_dict` (lines 218-249) at file level.  An absent file
yields the empty dict and total `0`.  A file whose `load_json_file` yields no
data makes the function crash: `file_data` is `None`, and Python 3 raises
before it is even reached (`e.message` on a `ValueError` at line 54) or, for
the `<sup>` case, when `check_duplicate_codes` iterates `None` at line 206.
The crash is modelled as `none`. -/
def load_translatable_dict_file : FileRead → Option (TransDict × Nat)
  | .absent => some ([], 0)
  | .invalid => none
  | .content rs => some (load_translatable_dict rs)

/-- `compare_translations` (lines 271-322) at file level: load the source,
localized and ignore files, then run the comparison core.  A crash in any
load propagates. -/
def compare_translations (enFile i18nFile ignoreFile : FileRead) :
    Option i18nStats := do
  let en ← load_translatable_dict_file enFile
  let li ← load_translatable_dict_file i18nFile
  let ig ← load_translatable_dict_file ignoreFile
  pure (compare_core en.1 li.1 ig.1 en.2)

/-- Number of `(code, field)` pairs of a field mapping. -/
def pairCount (d : TransDict) : Nat :=
  (d.map (fun kv => kv.2.length)).sum

/-- The classification condition of the inner field loop (lines 297-307),
per source pair `fv = (field, value)`: the pair is recorded untranslated when
the field is absent from the localized entry, or present with a value `lv`
that no ignore rule matches, is equal to the source value, and the source
value is non-empty.  Otherwise the field counts as translated. -/
def untranslated_value (ignore_dict : TransDict) (code : Code)
    (i18n_strings : Fields) (fv : String × String) : Bool :=
  match i18n_strings.lookup fv.1 with
  | none => true
  | some lv =>
    if should_ignore ignore_dict code fv.1 lv then false
    else fv.2 == lv && fv.2 != ""

/-- The untranslated mapping the comparator produces when the localized dict
equals the source dict and no ignore rule applies: per code, the non-empty
field values. -/
def selfUntranslated (d : TransDict) : TransDict :=
  d.filterMap (fun kv =>
    let u := kv.2.filter (fun fv => fv.2 != "")
    if u.length > 0 then some (kv.1, u) else none)

/-- The translated count the comparator produces when the localized dict
equals the source dict and no ignore rule applies: the number of empty-string
field values. -/
def selfTranslated (d : TransDict) : Nat :=
  (d.map (fun kv => (kv.2.filter (fun fv => fv.2 == "")).length)).sum

/-- A source file with one record and two non-empty translatable fields. -/
def c1Records : List Record :=
  [[(codeKey, "A1"), ("name", "Noise"), ("text", "Draw 1")]]

/-- Two records sharing a code; the first contributes no whitelisted field,
the second contributes one. -/
def c8Records : List Record :=
  [[(codeKey, "c")], [(codeKey, "c"), ("name", "x")]]

/-- A one-entry field mapping used to instantiate witnesses. -/
def wDict : TransDict := [(some "A", [("text", "T")])]

/-- A field mapping whose single value is non-empty and matched by the ignore
rule `wIgnore` below. -/
def w7Dict : TransDict := [(some "A", [("text", "Ability text")])]

/-- An ignore mapping matching the localized value of `w7Dict` exactly. -/
def wIgnore : TransDict := [(some "A", [("text", "Ability text")])]

/-! ### JSON values and the canonical formatter (`format_json`, lines 32-41)

Texts are modelled as `List Char` (Python strings are sequences of code
points).  Numbers are restricted to integers: the data files of this
repository carry only integer numbers, and the formatter claims are settled
relative to this subset. -/

/-- A decoded JSON value (`json.loads` output).  Object fields keep their
textual order; Python dicts cannot hold duplicate keys, but no result below
relies on that. -/
inductive Json where
  | null : Json
  | bool (b : Bool) : Json
  | num (n : Int) : Json
  | str (s : List Char) : Json
  | arr (xs : List Json) : Json
  | obj (fs : List (List Char × Json)) : Json

/-- Strict lexicographic comparison of texts by code point, as Python
compares strings (`sort_keys=True` sorts object keys this way). -/
def lexLt : List Char → List Char → Bool
  | [], [] => false
  | [], _ :: _ => true
  | _ :: _, [] => false
  | a :: as, b :: bs => if a < b then true else if b < a then false else lexLt as bs

/-- Key order on object fields: `p` comes no later than `q`. -/
def keyLE (p q : List Char × Json) : Prop := lexLt q.1 p.1 = false

instance : DecidableRel keyLE := fun p q => instDecidableEqBool (lexLt q.1 p.1) false

mutual
/-- Recursively sort all object field lists by key (the effect of
`sort_keys=True` at every nesting level). -/
def sortNorm : Json → Json
  | .null => .null
  | .bool b => .bool b
  | .num n => .num n
  | .str s => .str s
  | .arr xs => .arr (sortNormList xs)
  | .obj fs => .obj (List.insertionSort keyLE (sortNormFields fs))
def sortNormList : List Json → List Json
  | [] => []
  | x :: xs => sortNorm x :: sortNormList xs
def sortNormFields : List (List Char × Json) → List (List Char × Json)
  | [] => []
  | kv :: fs => (kv.1, sortNorm kv.2) :: sortNormFields fs
end

/-- The JSON escape of one character with `ensure_ascii=False`: quote,
backslash and the five short control escapes use two-character escapes, the
remaining control characters use `\u00xx`, everything else passes through. -/
def escChar (c : Char) : List Char :=
  if c = '"' then ['\\', '"']
  else if c = '\\' then ['\\', '\\']
  else if c = '\n' then ['\\', 'n']
  else if c = '\t' then ['\\', 't']
  else if c = '\r' then ['\\', 'r']
  else if c = Char.ofNat 8 then ['\\', 'b']
  else if c = Char.ofNat 12 then ['\\', 'f']
  else if c.toNat < 32 then
    ['\\', 'u', '0', '0', Nat.digitChar (c.toNat / 16), Nat.digitChar (c.toNat % 16)]
  else [c]

/-- The escaped body of a JSON string literal. -/
def escape (s : List Char) : List Char := (s.map escChar).flatten

/-- Decimal digits of `n` (fuel-based so that evaluation reduces in the
kernel; `n + 1` fuel always suffices). -/
def natDigitsAux : Nat → Nat → List Char
  | 0, _ => []
  | fuel + 1, n =>
    if n < 10 then [Nat.digitChar n]
    else natDigitsAux fuel (n / 10) ++ [Nat.digitChar (n % 10)]

/-- Decimal representation of a natural number. -/
def natDigits (n : Nat) : List Char := natDigitsAux (n + 1) n

/-- `repr` of a Python int, as `json.dumps` renders integers. -/
def intText : Int → List Char
  | .ofNat m => natDigits m
  | .negSucc m => '-' :: natDigits (m + 1)

/-- A text fragment with line structure: the part that continues the current
line, then full lines as (indentation level, content). -/
abbrev Frag := List Char × List (Nat × List Char)

/-- Append a trailing fragment to the content of the last line. -/
def attachLast : List (Nat × List Char) → List Char → List (Nat × List Char)
  | [], _ => []
  | [p], h => [(p.1, p.2 ++ h)]
  | p :: q :: ps, h => p :: attachLast (q :: ps) h

/-- Textual concatenation of fragments: the head of `B` continues the last
line of `A`. -/
def lcat (A B : Frag) : Frag :=
  match A.2 with
  | [] => (A.1 ++ B.1, B.2)
  | _ :: _ => (A.1, attachLast A.2 B.1 ++ B.2)

/-- Start a new line at indentation level `k` before fragment `B`. -/
def nlAt (k : Nat) (B : Frag) : Frag := ([], (k, B.1) :: B.2)

/-- Flatten a fragment to text for a concrete indentation function. -/
def textOf (ind : Nat → List Char) (F : Frag) : List Char :=
  F.1 ++ (F.2.map (fun p => '\n' :: (ind p.1 ++ p.2))).flatten

/-- The key part of an object member: `"key": `. -/
def keyText (k : List Char) : List Char :=
  '"' :: escape k ++ '"' :: ':' :: ' ' :: []

mutual
/-- Line structure of `json.dumps(x, ensure_ascii=False, sort_keys=True,
indent=4, separators=(",", ": "))` applied to an already key-sorted value:
scalars render inline; non-empty containers put every item on its own line,
one level deeper, with `,` attached to the previous item line. -/
def rlines (lvl : Nat) : Json → Frag
  | .null => (('n' :: 'u' :: 'l' :: 'l' :: []), [])
  | .bool true => (('t' :: 'r' :: 'u' :: 'e' :: []), [])
  | .bool false => (('f' :: 'a' :: 'l' :: 's' :: 'e' :: []), [])
  | .num n => (intText n, [])
  | .str s => ('"' :: escape s ++ ['"'], [])
  | .arr [] => (['[', ']'], [])
  | .arr (x :: xs) =>
    lcat (lcat (lcat (['['], []) (nlAt (lvl + 1) (rlines (lvl + 1) x)))
        (rlinesItems (lvl + 1) xs))
      (nlAt lvl ([']'], []))
  | .obj [] => ([Char.ofNat 123, Char.ofNat 125], [])
  | .obj (kv :: fs) =>
    lcat (lcat (lcat ([Char.ofNat 123], [])
          (nlAt (lvl + 1) (rlinesMember (lvl + 1) kv)))
        (rlinesFields (lvl + 1) fs))
      (nlAt lvl ([Char.ofNat 125], []))
def rlinesItems (lvl : Nat) : List Json → Frag
  | [] => ([], [])
  | x :: xs =>
    lcat (lcat ([','], []) (nlAt lvl (rlines lvl x))) (rlinesItems lvl xs)
def rlinesFields (lvl : Nat) : List (List Char × Json) → Frag
  | [] => ([], [])
  | kv :: fs =>
    lcat (lcat ([','], []) (nlAt lvl (rlinesMember lvl kv)))
      (rlinesFields lvl fs)
def rlinesMember (lvl : Nat) (kv : List Char × Json) : Frag :=
  lcat (keyText kv.1, []) (rlines lvl kv.2)
end

/-- Indentation of `json.dumps(..., indent=4)`: four spaces per level. -/
def spInd (k : Nat) : List Char := List.replicate (4 * k) ' '

/-- `json.dumps(json_data, ensure_ascii=False, sort_keys=True, indent=4,
separators=(",", ": "))` (line 33). -/
def dumps (x : Json) : List Char := textOf spInd (rlines 0 (sortNorm x))

/-- Python `str.replace` with fuel (fuel equal to the text length always
suffices for a non-empty pattern): leftmost non-overlapping occurrences of
`pat` are replaced by `rep` in one left-to-right pass. -/
def replaceAllF (pat rep : List Char) : Nat → List Char → List Char
  | 0, t => t
  | fuel + 1, t =>
    match t with
    | [] => []
    | c :: t' =>
      if pat.isPrefixOf t then rep ++ replaceAllF pat rep fuel (t.drop pat.length)
      else c :: replaceAllF pat rep fuel t'

/-- Python `t.replace(pat, rep)` for a non-empty pattern. -/
def pyReplace (t pat rep : List Char) : List Char :=
  if pat.isEmpty then t else replaceAllF pat rep t.length t

/-- Whether `pat` occurs as a contiguous subsequence of `t`. -/
def containsSeq (pat : List Char) : List Char → Bool
  | [] => pat.isEmpty
  | c :: t => pat.isPrefixOf (c :: t) || containsSeq pat t

/-- The character replacement chain of `format_json` (lines 34-37): curly
quotes to apostrophe, minus sign and en-dash to hyphen, the escape sequences
`\r\n` to `\n` and ` \n` to `\n`, and `][` to `] [`. -/
def applyReplacements (t : List Char) : List Char :=
  let d1 := pyReplace (pyReplace t [Char.ofNat 0x2018] [Char.ofNat 39])
    [Char.ofNat 0x2019] [Char.ofNat 39]
  let d2 := pyReplace (pyReplace d1 [Char.ofNat 0x2212] ['-'])
    [Char.ofNat 0x2013] ['-']
  let d3 := pyReplace (pyReplace d2 ['\\', 'r', '\\', 'n'] ['\\', 'n'])
    [' ', '\\', 'n'] ['\\', 'n']
  pyReplace d3 [']', '['] [']', ' ', '[']

/-- Leading spaces of `n` characters. -/
def spaces (n : Nat) : List Char := List.replicate n ' '

/-- Leading tabs of `n` characters. -/
def tabs (n : Nat) : List Char := List.replicate n '\t'

/-- One anchored substitution of `re.sub("^" + "    "*i, "\t"*i, ..)` at a
single line start. -/
def tabStart (i : Nat) (t : List Char) : List Char :=
  if (spaces (4 * i)).isPrefixOf t then tabs i ++ t.drop (4 * i) else t

/-- `re.sub("^" + "    "*i, "\t"*i, t, flags=re.MULTILINE)` (line 39): the
anchored pattern fires at most once per line, replacing a leading run of
`4*i` spaces with `i` tabs. -/
def tabPass (i : Nat) (t : List Char) : List Char :=
  List.intercalate ['\n'] ((t.splitOn '\n').map (tabStart i))

/-- The loop `for i in range(8, 0, -1)` of lines 38-39. -/
def tabify (t : List Char) : List Char :=
  [8, 7, 6, 5, 4, 3, 2, 1].foldl (fun acc i => tabPass i acc) t

/-- `format_json` (lines 32-41): canonical dump, replacement chain, tab
conversion, one trailing newline. -/
def format_json (j : Json) : List Char :=
  tabify (applyReplacements (dumps j)) ++ ['\n']

/-- A value is clean when the replacement chain of `format_json` leaves its
canonical dump unchanged — none of the substituted characters or escape
patterns occur in its rendering. -/
def CleanJson (x : Json) : Prop := applyReplacements (dumps x) = dumps x

/-! ### A model of `json.loads` (restricted to the data shapes of this
repository: integer numbers; no floats; raw control characters in strings
are not rejected) -/

/-- JSON whitespace. -/
def isWs (c : Char) : Bool := c = ' ' || c = '\t' || c = '\n' || c = '\r'

/-- Skip leading whitespace. -/
def skipWs (t : List Char) : List Char := t.dropWhile isWs

/-- Value of one hex digit. -/
def hexVal (c : Char) : Option Nat :=
  if '0' ≤ c ∧ c ≤ '9' then some (c.toNat - 48)
  else if 'a' ≤ c ∧ c ≤ 'f' then some (c.toNat - 87)
  else if 'A' ≤ c ∧ c ≤ 'F' then some (c.toNat - 55)
  else none

/-- Parse the body of a string literal after the opening quote, returning
the decoded text and the remainder after the closing quote. -/
def parseStrBody : Nat → List Char → Option (List Char × List Char)
  | 0, _ => none
  | fuel + 1, t =>
    match t with
    | [] => none
    | c :: cs =>
      if c = '"' then some ([], cs)
      else if c = '\\' then
        match cs with
        | [] => none
        | e :: cs' =>
          if e = '"' then
            (parseStrBody fuel cs').map (fun r => ('"' :: r.1, r.2))
          else if e = '\\' then
            (parseStrBody fuel cs').map (fun r => ('\\' :: r.1, r.2))
          else if e = '/' then
            (parseStrBody fuel cs').map (fun r => ('/' :: r.1, r.2))
          else if e = 'n' then
            (parseStrBody fuel cs').map (fun r => ('\n' :: r.1, r.2))
          else if e = 't' then
            (parseStrBody fuel cs').map (fun r => ('\t' :: r.1, r.2))
          else if e = 'r' then
            (parseStrBody fuel cs').map (fun r => ('\r' :: r.1, r.2))
          else if e = 'b' then
            (parseStrBody fuel cs').map (fun r => (Char.ofNat 8 :: r.1, r.2))
          else if e = 'f' then
            (parseStrBody fuel cs').map (fun r => (Char.ofNat 12 :: r.1, r.2))
          else if e = 'u' then
            match cs' with
            | h1 :: h2 :: h3 :: h4 :: cs'' =>
              match hexVal h1, hexVal h2, hexVal h3, hexVal h4 with
              | some a, some b, some c2, some d =>
                (parseStrBody fuel cs'').map
                  (fun r => (Char.ofNat (((a * 16 + b) * 16 + c2) * 16 + d) :: r.1, r.2))
              | _, _, _, _ => none
            | _ => none
          else none
      else (parseStrBody fuel cs).map (fun r => (c :: r.1, r.2))

/-- Numeric value of a run of decimal digits. -/
def natFromDigits (ds : List Char) : Nat :=
  ds.foldl (fun acc c => acc * 10 + (c.toNat - 48)) 0

/-- Parse a natural number literal; float forms (a following `.`, `e` or
`E`) are outside the model and rejected. -/
def parseNat (t : List Char) : Option (Nat × List Char) :=
  let ds := t.takeWhile Char.isDigit
  let rest := t.dropWhile Char.isDigit
  if ds.isEmpty then none
  else
    match rest with
    | c :: _ =>
      if c = '.' ∨ c = 'e' ∨ c = 'E' then none
      else some (natFromDigits ds, rest)
    | [] => some (natFromDigits ds, rest)

mutual
/-- Parse one JSON value. -/
def parseVal : Nat → List Char → Option (Json × List Char)
  | 0, _ => none
  | fuel + 1, t =>
    match skipWs t with
    | [] => none
    | c :: r =>
      if c = 'n' then
        match r with
        | 'u' :: 'l' :: 'l' :: r' => some (.null, r')
        | _ => none
      else if c = 't' then
        match r with
        | 'r' :: 'u' :: 'e' :: r' => some (.bool true, r')
        | _ => none
      else if c = 'f' then
        match r with
        | 'a' :: 'l' :: 's' :: 'e' :: r' => some (.bool false, r')
        | _ => none
      else if c = '"' then
        (parseStrBody fuel r).map (fun p => (.str p.1, p.2))
      else if c = '-' then
        (parseNat r).map (fun p => (.num (-(p.1 : Int)), p.2))
      else if c.isDigit then
        (parseNat (c :: r)).map (fun p => (.num (p.1 : Int), p.2))
      else if c = '[' then parseArrItems fuel r
      else if c = Char.ofNat 123 then parseObjItems fuel r
      else none

/-- Parse the items of an array after `[`. -/
def parseArrItems : Nat → List Char → Option (Json × List Char)
  | 0, _ => none
  | fuel + 1, t =>
    match skipWs t with
    | c :: r =>
      if c = ']' then some (.arr [], r)
      else
        match parseVal fuel t with
        | some (v, r1) =>
          (parseArrRest fuel r1).map (fun p => (.arr (v :: p.1), p.2))
        | none => none
    | [] => none

/-- Parse `, value` continuations of an array, then the closing bracket. -/
def parseArrRest : Nat → List Char → Option (List Json × List Char)
  | 0, _ => none
  | fuel + 1, t =>
    match skipWs t with
    | c :: r =>
      if c = ']' then some ([], r)
      else if c = ',' then
        match parseVal fuel r with
        | some (v, r1) => (parseArrRest fuel r1).map (fun p => (v :: p.1, p.2))
        | none => none
      else none
    | [] => none

/-- Parse the members of an object after `{`. -/
def parseObjItems : Nat → List Char → Option (Json × List Char)
  | 0, _ => none
  | fuel + 1, t =>
    match skipWs t with
    | c :: r =>
      if c = Char.ofNat 125 then some (.obj [], r)
      else if c = '"' then
        match parseStrBody fuel r with
        | some (k, r1) =>
          match skipWs r1 with
          | c1 :: r2 =>
            if c1 = ':' then
              match parseVal fuel r2 with
              | some (v, r3) =>
                (parseObjRest fuel r3).map
                  (fun p => (.obj ((k, v) :: p.1), p.2))
              | none => none
            else none
          | [] => none
        | none => none
      else none
    | [] => none

/-- Parse `, "key": value` continuations of an object, then the closing
brace. -/
def parseObjRest : Nat → List Char → Option (List (List Char × Json) × List Char)
  | 0, _ => none
  | fuel + 1, t =>
    match skipWs t with
    | c :: r =>
      if c = Char.ofNat 125 then some ([], r)
      else if c = ',' then
        match skipWs r with
        | c0 :: r1 =>
          if c0 = '"' then
            match parseStrBody fuel r1 with
            | some (k, r2) =>
              match skipWs r2 with
              | c1 :: r3 =>
                if c1 = ':' then
                  match parseVal fuel r3 with
                  | some (v, r4) =>
                    (parseObjRest fuel r4).map (fun p => ((k, v) :: p.1, p.2))
                  | none => none
                else none
              | [] => none
            | none => none
          else none
        | [] => none
      else none
    | [] => none
end

/-- `json.loads` on a whole document: one value, then only whitespace. -/
def json_loads (t : List Char) : Option Json :=
  match parseVal (t.length + 1) t with
  | some (v, rest) => if (skipWs rest).isEmpty then some v else none
  | none => none

/-! ### Error counters and exit status (`load_json_file`, lines 43-76, and
`main`, lines 397-423) -/

/-- The banned marker `<sup>` (line 59). -/
def supMarker : List Char := '<' :: 's' :: 'u' :: 'p' :: '>' :: []

/-- Result of `load_json_file` on one file: the deltas it applies to
`formatting_errors` and `validation_errors`, and its returned data; or a
crash. -/
inductive LoadOutcome where
  | crash (df dv : Nat) : LoadOutcome
  | ok (df dv : Nat) (data : Option Json) : LoadOutcome

/-- `load_json_file` (lines 43-76) on the raw text of one file.  Malformed
JSON increments `validation_errors` and then crashes: line 54 reads
`e.message`, which `ValueError` does not have on Python 3.  A `<sup>` marker
in the canonical rendering is a validation error with no data.  A raw text
that differs from the canonical rendering adds `0` to `formatting_errors`
(line 66 reads `formatting_errors += 0`) — written here exactly as the
source has it. -/
def load_json_file (raw : List Char) : LoadOutcome :=
  match json_loads raw with
  | none => .crash 0 1
  | some j =>
    if containsSeq supMarker (format_json j) then .ok 0 1 none
    else if format_json j ≠ raw then .ok (0 + 0) 0 (some j)
    else .ok 0 0 (some j)

/-- Process a list of files in order, accumulating the two error counters;
a crash aborts the remaining files. -/
def processFiles : List (List Char) → Nat × Nat × Bool
  | [] => (0, 0, false)
  | f :: fs =>
    match load_json_file f with
    | .crash df dv => (df, dv, true)
    | .ok df dv _ =>
      let r := processFiles fs
      (df + r.1, dv + r.2.1, r.2.2)

/-- The exit status of `main` (lines 419-423): a crash exits with a
traceback (status 1); otherwise status 0 exactly when both counters are
zero. -/
def main_exit (files : List (List Char)) : Nat :=
  let r := processFiles files
  if r.2.2 then 1
  else if r.1 = 0 ∧ r.2.1 = 0 then 0 else 1

/-! ### Supporting notions for the round-trip proofs -/

/-- An indentation function producing only whitespace. -/
def WsInd (ind : Nat → List Char) : Prop :=
  ∀ k c, c ∈ ind k → isWs c = true

/-- The text following a rendered value inside a canonical document starts
with a separator (or is empty), so a numeric literal cannot run into it. -/
def SepOk (t : List Char) : Prop :=
  ∀ c, t.head? = some c → c = ',' ∨ c = '\n' ∨ c = ']' ∨ c = Char.ofNat 125

mutual
/-- Enough parser fuel for one value. -/
def fuelNeed : Json → Nat
  | .null => 1
  | .bool _ => 1
  | .num _ => 1
  | .str s => s.length + 2
  | .arr xs => fuelNeedList xs + 2
  | .obj fs => fuelNeedFields fs + 2
def fuelNeedList : List Json → Nat
  | [] => 1
  | x :: xs => fuelNeed x + fuelNeedList xs + 1
def fuelNeedFields : List (List Char × Json) → Nat
  | [] => 1
  | kv :: fs => kv.1.length + fuelNeed kv.2 + fuelNeedFields fs + 2
end

/-- A well-formed rendered line: non-empty, not starting with a space, and
free of raw newlines. -/
def okLine (p : Nat × List Char) : Prop :=
  p.2 ≠ [] ∧ (∀ c, p.2.head? = some c → c ≠ ' ') ∧ '\n' ∉ p.2

/-- A well-formed fragment: newline-free head, well-formed lines. -/
def GoodF (F : Frag) : Prop :=
  '\n' ∉ F.1 ∧ ∀ p ∈ F.2, okLine p

/-- The head of a fragment is non-empty and does not start with a space. -/
def HeadOk (F : Frag) : Prop :=
  F.1 ≠ [] ∧ ∀ c, F.1.head? = some c → c ≠ ' '

/-- The indentation that the eight tab passes leave behind: up to eight
levels become tabs, deeper levels keep their remaining spaces. -/
def tabInd (k : Nat) : List Char :=
  tabs (min k 8) ++ spaces (4 * k - 4 * min k 8)

/-- Structural induction on `Json` with membership hypotheses for the
elements of arrays and objects. -/
def Json.recMem {P : Json → Prop} (h1 : P .null) (h2 : ∀ b, P (.bool b))
    (h3 : ∀ n, P (.num n)) (h4 : ∀ s, P (.str s))
    (h5 : ∀ xs, (∀ x ∈ xs, P x) → P (.arr xs))
    (h6 : ∀ fs, (∀ kv ∈ fs, P kv.2) → P (.obj fs)) : ∀ x, P x
  | .null => h1
  | .bool b => h2 b
  | .num n => h3 n
  | .str s => h4 s
  | .arr xs => h5 xs (fun x _ => Json.recMem h1 h2 h3 h4 h5 h6 x)
  | .obj fs => h6 fs (fun kv _ => Json.recMem h1 h2 h3 h4 h5 h6 kv.2)
termination_by x => sizeOf x
decreasing_by
  · rename_i hx
    have := List.sizeOf_lt_of_mem hx
    simp only [Json.arr.sizeOf_spec]
    omega
  · rename_i kv hkv
    have h := List.sizeOf_lt_of_mem hkv
    have h2 : sizeOf kv.2 < sizeOf kv := by
      obtain ⟨a, b⟩ := kv
      simp only [Prod.mk.sizeOf_spec]
      omega
    simp only [Json.obj.sizeOf_spec]
    omega

/-! ### Association-list lemmas -/

section AList

variable {α β : Type} [BEq α] [LawfulBEq α]

theorem lookup_cons (kv : α × β) (l : List (α × β)) (a : α) :
    (kv :: l).lookup a = if a == kv.1 then some kv.2 else l.lookup a := by
  rcases kv with ⟨k, v⟩
  by_cases h : a == k <;> simp [List.lookup, h]

theorem lookup_append (l₁ l₂ : List (α × β)) (a : α) :
    (l₁ ++ l₂).lookup a = ((l₁.lookup a).or (l₂.lookup a)) := by
  induction l₁ with
  | nil => simp
  | cons kv l ih =>
    by_cases h : a == kv.1 <;> simp [lookup_cons, h, ih]

theorem lookup_eq_none_of_not_mem_keys {l : List (α × β)} {a : α}
    (h : a ∉ l.map Prod.fst) : l.lookup a = none := by
  induction l with
  | nil => rfl
  | cons kv l ih =>
    simp only [List.map_cons, List.mem_cons, not_or] at h
    have hk : ¬(a == kv.1) := by simp [h.1]
    simp [lookup_cons, hk, ih h.2]

theorem mem_keys_of_lookup_eq_some {l : List (α × β)} {a : α} {b : β}
    (h : l.lookup a = some b) : a ∈ l.map Prod.fst := by
  by_contra hmem
  rw [lookup_eq_none_of_not_mem_keys hmem] at h
  exact Option.noConfusion h

theorem lookup_of_mem_nodup {l : List (α × β)} {a : α} {b : β}
    (hn : (l.map Prod.fst).Nodup) (hm : (a, b) ∈ l) : l.lookup a = some b := by
  induction l with
  | nil => cases hm
  | cons kv l ih =>
    simp only [List.map_cons, List.nodup_cons] at hn
    rcases List.mem_cons.1 hm with h | h
    · subst h; simp [lookup_cons]
    · have hk : ¬(a == kv.1) := by
        intro hbeq
        exact hn.1 (eq_of_beq hbeq ▸ (List.mem_map.2 ⟨(a, b), h, rfl⟩))
      simp [lookup_cons, hk, ih hn.2 h]

theorem lookup_eraseP_ne (l : List (α × β)) (k a : α) (h : ¬ k = a) :
    (l.eraseP (fun kv => kv.1 == k)).lookup a = l.lookup a := by
  induction l with
  | nil => rfl
  | cons kv l ih =>
    by_cases hk : kv.1 == k
    · have hka : ¬(a == kv.1) := by
        intro ha
        exact h ((eq_of_beq hk) ▸ (eq_of_beq ha).symm)
      simp [List.eraseP_cons, hk, lookup_cons, hka]
    · by_cases ha : a == kv.1 <;>
        simp [List.eraseP_cons, hk, lookup_cons, ha, ih]

theorem lookup_eraseP_self_nodup {l : List (α × β)} {c : α}
    (hn : (l.map Prod.fst).Nodup) :
    (l.eraseP (fun kv => kv.1 == c)).lookup c = none := by
  induction l with
  | nil => rfl
  | cons kv l ih =>
    simp only [List.map_cons, List.nodup_cons] at hn
    by_cases hk : kv.1 == c
    · simp only [List.eraseP_cons, hk, if_pos]
      apply lookup_eq_none_of_not_mem_keys
      intro hmem
      exact hn.1 (eq_of_beq hk ▸ hmem)
    · have hck : ¬(c == kv.1) := by
        intro h; exact hk (by simp [eq_of_beq h])
      simp [List.eraseP_cons, hk, lookup_cons, hck, ih hn.2]

theorem keys_eraseP_sublist (l : List (α × β)) (p : α × β → Bool) :
    ((l.eraseP p).map Prod.fst).Sublist (l.map Prod.fst) :=
  (List.eraseP_sublist l).map Prod.fst

end AList

/-! ### Field classification -/

theorem classify_fields_eq (ig : TransDict) (c : Code) (enFs iFs : Fields) :
    classify_fields ig c enFs iFs =
      ((enFs.filter (fun fv => !(untranslated_value ig c iFs fv))).length,
       enFs.filter (fun fv => untranslated_value ig c iFs fv)) := by
  suffices h : ∀ (fs : Fields) (a : Nat) (u : Fields),
      fs.foldl (classify_step ig c iFs) (a, u)
      = (a + (fs.filter (fun fv => !(untranslated_value ig c iFs fv))).length,
         u ++ fs.filter (fun fv => untranslated_value ig c iFs fv)) by
    simpa [classify_fields] using h enFs 0 []
  intro fs
  induction fs with
  | nil => simp
  | cons fv fs ih =>
    intro a u
    rcases hv : iFs.lookup fv.1 with _ | lv
    · have huv : untranslated_value ig c iFs fv = true := by
        simp [untranslated_value, hv]
      have hs : classify_step ig c iFs (a, u) fv = (a, u ++ [fv]) := by
        simp [classify_step, hv]
      rw [List.foldl_cons, hs, ih]
      simp [List.filter_cons, huv]
    · by_cases hig : should_ignore ig c fv.1 lv
      · have huv : untranslated_value ig c iFs fv = false := by
          simp [untranslated_value, hv, hig]
        have hs : classify_step ig c iFs (a, u) fv = (a + 1, u) := by
          simp [classify_step, hv, hig]
        rw [List.foldl_cons, hs, ih]
        simp [List.filter_cons, huv, Nat.add_assoc, Nat.add_comm,
          Nat.add_left_comm]
      · by_cases heq : (fv.2 == lv && fv.2 != "") = true
        · have huv : untranslated_value ig c iFs fv = true := by
            simp only [untranslated_value, hv, if_neg hig]
            exact heq
          have hs : classify_step ig c iFs (a, u) fv = (a, u ++ [fv]) := by
            simp [classify_step, hv, hig, heq]
          rw [List.foldl_cons, hs, ih]
          simp [List.filter_cons, huv]
        · have huv : untranslated_value ig c iFs fv = false := by
            simp only [untranslated_value, hv, if_neg hig]
            simpa using heq
          have hs : classify_step ig c iFs (a, u) fv = (a + 1, u) := by
            simp only [classify_step, hv, if_neg hig]
            simp [heq]
          rw [List.foldl_cons, hs, ih]
          simp [List.filter_cons, huv, Nat.add_assoc, Nat.add_comm,
            Nat.add_left_comm]

theorem length_filter_add_length_filter_not {α : Type} (l : List α)
    (p : α → Bool) :
    (l.filter p).length + (l.filter (fun x => !(p x))).length = l.length := by
  induction l with
  | nil => rfl
  | cons x l ih =>
    by_cases h : p x <;> simp [List.filter_cons, h] <;> omega

/-! ### The outer comparison loop -/

theorem pairCount_append (l₁ l₂ : TransDict) :
    pairCount (l₁ ++ l₂) = pairCount l₁ + pairCount l₂ := by
  simp [pairCount]

theorem pairCount_cons (kv : Code × Fields) (l : TransDict) :
    pairCount (kv :: l) = kv.2.length + pairCount l := by
  simp [pairCount]

theorem pairCount_eraseP {l : TransDict} {c : Code} {fs : Fields}
    (h : l.lookup c = some fs) :
    pairCount l = fs.length + pairCount (l.eraseP (fun kv => kv.1 == c)) := by
  induction l with
  | nil => cases h
  | cons kv l ih =>
    by_cases hc : c = kv.1
    · have hb : (c == kv.1) = true := by simp [hc]
      have hb2 : (kv.1 == c) = true := by simp [hc]
      rw [lookup_cons, if_pos hb] at h
      obtain rfl : fs = kv.2 := by injection h with h; exact h.symm
      simp [List.eraseP_cons, hb2, pairCount_cons]
    · have hb : ¬ (c == kv.1) := by simp [hc]
      have hb2 : (kv.1 == c) = false := by
        simp only [beq_eq_false_iff_ne, ne_eq]
        intro h2; exact hc h2.symm
      rw [lookup_cons, if_neg hb] at h
      rw [List.eraseP_cons, hb2]
      simp only [Bool.cond_false, pairCount_cons, ih h]
      omega

theorem compare_fold_lookup_stable (ig : TransDict) (c : Code) :
    ∀ (lst : TransDict) (tr : Nat) (unt enW : TransDict),
      enW.lookup c = none →
      ((lst.foldl (compare_step ig) (tr, unt, enW)).2.1).lookup c
        = unt.lookup c := by
  intro lst
  induction lst with
  | nil => intro tr unt enW _; rfl
  | cons e lst ih =>
    intro tr unt enW h
    rw [List.foldl_cons]
    rcases he : enW.lookup e.1 with _ | fs
    · have hs : compare_step ig (tr, unt, enW) e = (tr, unt, enW) := by
        simp [compare_step, he]
      rw [hs]; exact ih _ _ _ h
    · have hec : ¬ (e.1 = c) := by
        rintro rfl; rw [h] at he; cases he
      have hs : compare_step ig (tr, unt, enW) e =
          (tr + (classify_fields ig e.1 fs e.2).1,
           if (classify_fields ig e.1 fs e.2).2.length > 0
           then unt ++ [(e.1, (classify_fields ig e.1 fs e.2).2)] else unt,
           enW.eraseP (fun kv => kv.1 == e.1)) := by
        simp [compare_step, he]
      rw [hs]
      have h1 : (enW.eraseP (fun kv => kv.1 == e.1)).lookup c = none := by
        rw [lookup_eraseP_ne _ _ _ hec]; exact h
      rw [ih _ _ _ h1]
      by_cases hlen : (classify_fields ig e.1 fs e.2).2.length > 0
      · have hcb : ¬ (c == e.1) := by
          intro hb; exact hec (eq_of_beq hb).symm
        simp [if_pos hlen, lookup_append, lookup_cons, hcb]
      · simp [if_neg hlen]

theorem compare_fold_lookup (ig : TransDict) (c : Code) (enFs iFs : Fields) :
    ∀ (lst : TransDict) (tr : Nat) (unt enW : TransDict),
      (enW.map Prod.fst).Nodup →
      enW.lookup c = some enFs →
      lst.lookup c = some iFs →
      unt.lookup c = none →
      ((lst.foldl (compare_step ig) (tr, unt, enW)).2.1).lookup c =
        (if (enFs.filter (untranslated_value ig c iFs)).length > 0
         then some (enFs.filter (untranslated_value ig c iFs)) else none) := by
  intro lst
  induction lst with
  | nil => intro tr unt enW _ _ hl _; cases hl
  | cons e lst ih =>
    intro tr unt enW hn he hl hu
    rw [List.foldl_cons]
    by_cases hec : c == e.1
    · have hceq : e.1 = c := (eq_of_beq hec).symm
      rw [lookup_cons, if_pos hec] at hl
      obtain rfl : iFs = e.2 := by injection hl with h; exact h.symm
      have heW : enW.lookup e.1 = some enFs := by rw [hceq]; exact he
      have hs : compare_step ig (tr, unt, enW) e =
          (tr + (classify_fields ig e.1 enFs e.2).1,
           if (classify_fields ig e.1 enFs e.2).2.length > 0
           then unt ++ [(e.1, (classify_fields ig e.1 enFs e.2).2)] else unt,
           enW.eraseP (fun kv => kv.1 == e.1)) := by
        simp [compare_step, heW]
      rw [hs]
      have h1 : (enW.eraseP (fun kv => kv.1 == e.1)).lookup c = none := by
        rw [hceq]; exact lookup_eraseP_self_nodup hn
      rw [compare_fold_lookup_stable ig c lst _ _ _ h1]
      rw [classify_fields_eq]
      simp only [hceq]
      by_cases hlen : (enFs.filter (untranslated_value ig c e.2)).length > 0
      · simp [if_pos hlen, lookup_append, hu, lookup_cons]
      · simp [if_neg hlen, hu]
    · have hlc : lst.lookup c = some iFs := by
        rwa [lookup_cons, if_neg hec] at hl
      have hne : ¬ (e.1 = c) := by
        intro h2; exact hec (by simp [h2])
      rcases he2 : enW.lookup e.1 with _ | fs
      · have hs : compare_step ig (tr, unt, enW) e = (tr, unt, enW) := by
          simp [compare_step, he2]
        rw [hs]; exact ih _ _ _ hn he hlc hu
      · have hs : compare_step ig (tr, unt, enW) e =
            (tr + (classify_fields ig e.1 fs e.2).1,
             if (classify_fields ig e.1 fs e.2).2.length > 0
             then unt ++ [(e.1, (classify_fields ig e.1 fs e.2).2)] else unt,
             enW.eraseP (fun kv => kv.1 == e.1)) := by
          simp [compare_step, he2]
        rw [hs]
        apply ih
        · exact ((keys_eraseP_sublist enW _).nodup hn)
        · rw [lookup_eraseP_ne _ _ _ hne]; exact he
        · exact hlc
        · by_cases hlen : (classify_fields ig e.1 fs e.2).2.length > 0
          · simp [if_pos hlen, lookup_append, hu, lookup_cons, hec]
          · simp [if_neg hlen, hu]

theorem compare_fold_conservation (ig : TransDict) :
    ∀ (lst : TransDict) (tr : Nat) (unt enW : TransDict),
      (lst.foldl (compare_step ig) (tr, unt, enW)).1
        + pairCount (lst.foldl (compare_step ig) (tr, unt, enW)).2.1
        + pairCount (lst.foldl (compare_step ig) (tr, unt, enW)).2.2
      = tr + pairCount unt + pairCount enW := by
  intro lst
  induction lst with
  | nil => intro tr unt enW; rfl
  | cons e lst ih =>
    intro tr unt enW
    rw [List.foldl_cons]
    rcases he : enW.lookup e.1 with _ | fs
    · have hs : compare_step ig (tr, unt, enW) e = (tr, unt, enW) := by
        simp [compare_step, he]
      rw [hs]; exact ih _ _ _
    · have hs : compare_step ig (tr, unt, enW) e =
          (tr + (classify_fields ig e.1 fs e.2).1,
           if (classify_fields ig e.1 fs e.2).2.length > 0
           then unt ++ [(e.1, (classify_fields ig e.1 fs e.2).2)] else unt,
           enW.eraseP (fun kv => kv.1 == e.1)) := by
        simp [compare_step, he]
      rw [hs, ih]
      have hpart : (classify_fields ig e.1 fs e.2).1
          + (classify_fields ig e.1 fs e.2).2.length = fs.length := by
        rw [classify_fields_eq]
        simpa using length_filter_add_length_filter_not fs
          (fun fv => !(untranslated_value ig e.1 e.2 fv))
      have herase : pairCount enW
          = fs.length + pairCount (enW.eraseP (fun kv => kv.1 == e.1)) :=
        pairCount_eraseP he
      by_cases hlen : (classify_fields ig e.1 fs e.2).2.length > 0
      · rw [if_pos hlen, pairCount_append]
        simp only [pairCount_cons]
        simp only [pairCount, List.map_nil, List.sum_nil] at *
        omega
      · rw [if_neg hlen]
        omega

/-! ### Loader invariants -/

theorem lookup_isSome_of_mem_keys {α β : Type} [BEq α] [LawfulBEq α]
    {l : List (α × β)} {a : α} (h : a ∈ l.map Prod.fst) :
    (l.lookup a).isSome := by
  induction l with
  | nil => cases h
  | cons kv l ih =>
    rw [lookup_cons]
    by_cases hb : a == kv.1
    · simp [hb]
    · have : a ∈ l.map Prod.fst := by
        rcases List.mem_cons.1 h with h1 | h1
        · exact absurd (by simp [h1]) hb
        · exact h1
      simp [hb, ih this]

theorem keys_get_translatable_strings (r : Record) :
    (((get_translatable_strings r).1).map Prod.fst).Sublist
      translatable_fields := by
  have : ∀ l : List String,
      ((l.filterMap (fun f => (r.lookup f).map (fun v => (f, v)))).map
        Prod.fst).Sublist l := by
    intro l
    induction l with
    | nil => simp
    | cons f l ih =>
      rcases h : r.lookup f with _ | v
      · simp only [List.filterMap_cons, h, Option.map_none]
        exact ih.cons f
      · simp only [List.filterMap_cons, h, Option.map_some, List.map_cons]
        exact ih.cons₂ f
  exact this translatable_fields

theorem translatable_fields_nodup : translatable_fields.Nodup := by decide

theorem load_step_inv (acc : LoadAcc) (c : Record) :
    (load_step acc c).total + pairCount acc.translatables
      = acc.total + pairCount ((load_step acc c).translatables) := by
  rcases hlk : acc.translatables.lookup (c.lookup codeKey) with _ | fs
  · by_cases hlen : 0 < (get_translatable_strings c).1.length
    · simp only [load_step, hlk]
      simp only [hlen, if_pos, pairCount_append, pairCount_cons,
        show pairCount ([] : TransDict) = 0 from rfl]
      omega
    · have h0 : (get_translatable_strings c).1.length = 0 := by omega
      simp only [load_step, hlk]
      simp [hlen, h0]
  · simp [load_step, hlk]

theorem load_fold_total : ∀ (l : List Record) (acc : LoadAcc),
    (l.foldl load_step acc).total + pairCount acc.translatables
      = acc.total + pairCount ((l.foldl load_step acc).translatables) := by
  intro l
  induction l with
  | nil => intro acc; rfl
  | cons c l ih =>
    intro acc
    rw [List.foldl_cons]
    have h1 := ih (load_step acc c)
    have h2 := load_step_inv acc c
    omega

theorem load_total (l : List Record) :
    (load_translatable_dict l).2 = pairCount (load_translatable_dict l).1 := by
  have := load_fold_total l ⟨[], 0, 0⟩
  simpa [load_translatable_dict, pairCount] using this

theorem load_fold_mem : ∀ (l : List Record) (acc : LoadAcc)
    (kv : Code × Fields), kv ∈ (l.foldl load_step acc).translatables →
    kv ∈ acc.translatables ∨ ∃ r, r ∈ l ∧ r.lookup codeKey = kv.1 ∧
      (get_translatable_strings r).1 = kv.2 ∧ 0 < kv.2.length := by
  intro l
  induction l with
  | nil => intro acc kv h; exact Or.inl h
  | cons c l ih =>
    intro acc kv h
    rw [List.foldl_cons] at h
    rcases hlk : acc.translatables.lookup (c.lookup codeKey) with _ | fs
    · by_cases hlen : 0 < (get_translatable_strings c).1.length
      · have hs : load_step acc c =
            ⟨acc.translatables ++ [(c.lookup codeKey, (get_translatable_strings c).1)],
             acc.total + (get_translatable_strings c).1.length, acc.warnings⟩ := by
          simp [load_step, hlk, hlen]
        rw [hs] at h
        rcases ih _ _ h with h1 | ⟨r, hr, h2⟩
        · rcases List.mem_append.1 h1 with h2 | h2
          · exact Or.inl h2
          · rcases List.mem_singleton.1 h2 with rfl
            exact Or.inr ⟨c, List.mem_cons_self c l, rfl, rfl, hlen⟩
        · exact Or.inr ⟨r, List.mem_cons_of_mem c hr, h2⟩
      · have hs : load_step acc c =
            ⟨acc.translatables, acc.total + (get_translatable_strings c).1.length,
             acc.warnings⟩ := by
          simp [load_step, hlk, hlen]
        rw [hs] at h
        rcases ih _ _ h with h1 | ⟨r, hr, h2⟩
        · exact Or.inl h1
        · exact Or.inr ⟨r, List.mem_cons_of_mem c hr, h2⟩
    · have hs : load_step acc c = { acc with warnings := acc.warnings + 1 } := by
        simp [load_step, hlk]
      rw [hs] at h
      rcases ih _ _ h with h1 | ⟨r, hr, h2⟩
      · exact Or.inl h1
      · exact Or.inr ⟨r, List.mem_cons_of_mem c hr, h2⟩

theorem load_fold_keys_nodup : ∀ (l : List Record) (acc : LoadAcc),
    ((acc.translatables.map Prod.fst)).Nodup →
    (((l.foldl load_step acc).translatables).map Prod.fst).Nodup := by
  intro l
  induction l with
  | nil => intro acc h; exact h
  | cons c l ih =>
    intro acc hn
    rw [List.foldl_cons]
    rcases hlk : acc.translatables.lookup (c.lookup codeKey) with _ | fs
    · by_cases hlen : 0 < (get_translatable_strings c).1.length
      · have hs : load_step acc c =
            ⟨acc.translatables ++ [(c.lookup codeKey, (get_translatable_strings c).1)],
             acc.total + (get_translatable_strings c).1.length, acc.warnings⟩ := by
          simp [load_step, hlk, hlen]
        rw [hs]
        apply ih
        simp only [List.map_append, List.map_cons, List.map_nil]
        rw [List.nodup_append]
        refine ⟨hn, List.nodup_singleton _, ?_⟩
        intro a ha hb
        rcases List.mem_singleton.1 hb with rfl
        have := lookup_isSome_of_mem_keys ha
        rw [hlk] at this
        cases this
      · have hs : load_step acc c =
            ⟨acc.translatables, acc.total + (get_translatable_strings c).1.length,
             acc.warnings⟩ := by
          simp [load_step, hlk, hlen]
        rw [hs]
        exact ih _ hn
    · have hs : load_step acc c = { acc with warnings := acc.warnings + 1 } := by
        simp [load_step, hlk]
      rw [hs]
      exact ih _ hn

theorem load_keys_nodup (l : List Record) :
    (((load_translatable_dict l).1).map Prod.fst).Nodup :=
  load_fold_keys_nodup l ⟨[], 0, 0⟩ List.nodup_nil

theorem load_mem (l : List Record) {kv : Code × Fields}
    (h : kv ∈ (load_translatable_dict l).1) :
    ∃ r, r ∈ l ∧ r.lookup codeKey = kv.1 ∧
      (get_translatable_strings r).1 = kv.2 ∧ 0 < kv.2.length := by
  rcases load_fold_mem l ⟨[], 0, 0⟩ kv h with h1 | h1
  · cases h1
  · exact h1

theorem load_fields_nodup (l : List Record) {kv : Code × Fields}
    (h : kv ∈ (load_translatable_dict l).1) :
    ((kv.2.map Prod.fst)).Nodup := by
  rcases load_mem l h with ⟨r, _, _, h3, _⟩
  rw [← h3]
  exact (keys_get_translatable_strings r).nodup translatable_fields_nodup

/-! ### Comparison of a dictionary with itself -/

theorem compare_fold_self : ∀ (s : TransDict),
    (∀ kv ∈ s, ((kv.2.map Prod.fst)).Nodup) → ∀ (tr : Nat) (unt : TransDict),
    List.foldl (compare_step []) (tr, unt, s) s
      = (tr + selfTranslated s, unt ++ selfUntranslated s, []) := by
  intro s
  induction s with
  | nil =>
    intro _ tr unt
    simp [selfTranslated, selfUntranslated]
  | cons e s ih =>
    intro hn tr unt
    have hne : ((e.2.map Prod.fst)).Nodup := hn e (List.mem_cons_self e s)
    have hlkp : ((e :: s).lookup e.1) = some e.2 := by
      rw [lookup_cons, if_pos (by simp)]
    have hcl : classify_fields [] e.1 e.2 e.2 =
        (((e.2.filter (fun fv => fv.2 == "")).length),
         e.2.filter (fun fv => fv.2 != "")) := by
      rw [classify_fields_eq]
      have huv : ∀ fv ∈ e.2, untranslated_value [] e.1 e.2 fv = (fv.2 != "") := by
        intro fv hfv
        have : e.2.lookup fv.1 = some fv.2 := lookup_of_mem_nodup hne hfv
        simp [untranslated_value, this, should_ignore]
      simp only [Prod.mk.injEq]
      refine ⟨?_, List.filter_congr huv⟩
      congr 1
      apply List.filter_congr
      intro fv hfv
      rw [huv fv hfv]
      simp [bne]
    have hstep : compare_step [] (tr, unt, e :: s) e =
        (tr + (e.2.filter (fun fv => fv.2 == "")).length,
         if 0 < (e.2.filter (fun fv => fv.2 != "")).length
         then unt ++ [(e.1, e.2.filter (fun fv => fv.2 != ""))] else unt,
         s) := by
      simp only [compare_step, hlkp, hcl]
      have : (e :: s).eraseP (fun kv => kv.1 == e.1) = s := by
        rw [List.eraseP_cons, show (e.1 == e.1) = true from by simp]
        rfl
      rw [this]
    rw [List.foldl_cons, hstep,
      ih (fun kv hkv => hn kv (List.mem_cons_of_mem e hkv))]
    have hselfT : selfTranslated (e :: s)
        = (e.2.filter (fun fv => fv.2 == "")).length + selfTranslated s := by
      simp [selfTranslated]
    have hselfU : selfUntranslated (e :: s)
        = (if 0 < (e.2.filter (fun fv => fv.2 != "")).length
           then (e.1, e.2.filter (fun fv => fv.2 != "")) :: selfUntranslated s
           else selfUntranslated s) := by
      simp only [selfUntranslated, List.filterMap_cons]
      by_cases hlen : 0 < (e.2.filter (fun fv => fv.2 != "")).length
      · simp [hlen]
      · simp [hlen]
    rw [hselfT, hselfU]
    by_cases hlen : 0 < (e.2.filter (fun fv => fv.2 != "")).length
    · simp [hlen, Nat.add_assoc]
    · simp [hlen, Nat.add_assoc]

/-! ### Further association-list and stats lemmas -/

theorem lookup_mem {α β : Type} [BEq α] [LawfulBEq α] {l : List (α × β)}
    {a : α} {b : β} (h : l.lookup a = some b) : (a, b) ∈ l := by
  induction l with
  | nil => cases h
  | cons kv l ih =>
    rw [lookup_cons] at h
    by_cases hb : a == kv.1
    · rw [if_pos hb] at h
      injection h with h
      have : a = kv.1 := eq_of_beq hb
      subst this; rw [← h]
      exact List.mem_cons_self _ _
    · rw [if_neg hb] at h
      exact List.mem_cons_of_mem _ (ih h)

theorem lookup_filter_nodup {α β : Type} [BEq α] [LawfulBEq α]
    {l : List (α × β)} (p : α × β → Bool) (a : α)
    (hn : (l.map Prod.fst).Nodup) :
    (l.filter p).lookup a =
      (match l.lookup a with
       | some v => if p (a, v) then some v else none
       | none => none) := by
  induction l with
  | nil => rfl
  | cons kv l ih =>
    simp only [List.map_cons, List.nodup_cons] at hn
    by_cases hb : a == kv.1
    · have ha : a = kv.1 := eq_of_beq hb
      by_cases hp : p kv = true
      · rw [List.filter_cons, if_pos hp, lookup_cons, if_pos hb,
          lookup_cons, if_pos hb]
        have : p (a, kv.2) = true := by
          rw [show (a, kv.2) = kv from by rw [ha]]
          exact hp
        simp [this]
      · rw [List.filter_cons, if_neg hp, lookup_cons, if_pos hb]
        have hnm : a ∉ (l.filter p).map Prod.fst := by
          intro hmem
          exact hn.1 (ha ▸ ((List.map_subset Prod.fst
            (fun x hx => List.mem_of_mem_filter hx)) hmem))
        rw [lookup_eq_none_of_not_mem_keys hnm]
        have : ¬ (p (a, kv.2) = true) := by
          rw [show (a, kv.2) = kv from by rw [ha]]
          exact hp
        simp [this]
    · by_cases hp : p kv = true
      · rw [List.filter_cons, if_pos hp, lookup_cons, if_neg hb,
          lookup_cons, if_neg hb]
        exact ih hn.2
      · rw [List.filter_cons, if_neg hp, lookup_cons, if_neg hb]
        exact ih hn.2

theorem pairCount_zero_iff {d : TransDict}
    (h : ∀ kv ∈ d, 0 < kv.2.length) : pairCount d = 0 ↔ d = [] := by
  induction d with
  | nil => simp [pairCount]
  | cons kv d _ =>
    rw [pairCount_cons]
    have := h kv (List.mem_cons_self kv d)
    constructor
    · intro h2; omega
    · intro h2; cases h2

theorem selfUntranslated_entry_pos {d : TransDict} {kv : Code × Fields}
    (h : kv ∈ selfUntranslated d) : 0 < kv.2.length := by
  rcases List.mem_filterMap.1 h with ⟨a, _, ha⟩
  dsimp only at ha
  split at ha
  · rename_i hlen
    injection ha with ha
    rw [← ha]
    exact hlen
  · cases ha

theorem selfUntranslated_cons (kv : Code × Fields) (d : TransDict) :
    selfUntranslated (kv :: d)
      = (if 0 < (kv.2.filter (fun fv => fv.2 != "")).length
         then (kv.1, kv.2.filter (fun fv => fv.2 != "")) :: selfUntranslated d
         else selfUntranslated d) := by
  simp only [selfUntranslated, List.filterMap_cons]
  by_cases hlen : 0 < (kv.2.filter (fun fv => fv.2 != "")).length
  · simp [hlen]
  · simp [hlen]

theorem pairCount_self_decomp (d : TransDict) :
    pairCount d = selfTranslated d + pairCount (selfUntranslated d) := by
  induction d with
  | nil => rfl
  | cons kv d ih =>
    have hpart := length_filter_add_length_filter_not kv.2
      (fun fv => fv.2 == "")
    have hbne : kv.2.filter (fun fv => !(fv.2 == ""))
        = kv.2.filter (fun fv => fv.2 != "") := by
      apply List.filter_congr
      intro fv _
      simp [bne]
    rw [hbne] at hpart
    have hT : selfTranslated (kv :: d)
        = (kv.2.filter (fun fv => fv.2 == "")).length + selfTranslated d := by
      simp [selfTranslated]
    rw [pairCount_cons, hT, selfUntranslated_cons]
    by_cases hlen : 0 < (kv.2.filter (fun fv => fv.2 != "")).length
    · rw [if_pos hlen, pairCount_cons, ih]
      dsimp only
      omega
    · rw [if_neg hlen, ih]
      omega

theorem selfUntranslated_eq_nil_iff (d : TransDict) :
    selfUntranslated d = [] ↔ ∀ kv ∈ d, ∀ fv ∈ kv.2, fv.2 = "" := by
  rw [selfUntranslated, List.filterMap_eq_nil]
  constructor
  · intro h kv hkv fv hfv
    have := h kv hkv
    by_cases hlen : 0 < (kv.2.filter (fun fv => fv.2 != "")).length
    · rw [if_pos hlen] at this; cases this
    · have h0 : (kv.2.filter (fun fv => fv.2 != "")).length = 0 := by omega
      rw [List.length_eq_zero] at h0
      have := List.filter_eq_nil.1 h0 fv hfv
      simpa [bne] using this
  · intro h kv hkv
    have h0 : kv.2.filter (fun fv => fv.2 != "") = [] := by
      apply List.filter_eq_nil.2
      intro fv hfv
      simp [bne, h kv hkv fv hfv]
    simp [h0]

theorem compare_fold_missing_sublist (ig : TransDict) :
    ∀ (lst : TransDict) (acc : Nat × TransDict × TransDict),
      ((lst.foldl (compare_step ig) acc).2.2).Sublist acc.2.2 := by
  intro lst
  induction lst with
  | nil => intro acc; exact List.Sublist.refl _
  | cons e lst ih =>
    intro acc
    rw [List.foldl_cons]
    rcases he : acc.2.2.lookup e.1 with _ | fs
    · have hs : compare_step ig acc e = acc := by
        rcases acc with ⟨tr, unt, enW⟩
        simp [compare_step, he]
      rw [hs]; exact ih acc
    · have hs : (compare_step ig acc e).2.2
          = acc.2.2.eraseP (fun kv => kv.1 == e.1) := by
        rcases acc with ⟨tr, unt, enW⟩
        simp [compare_step, he]
      refine (ih _).trans ?_
      rw [hs]
      exact List.eraseP_sublist _

theorem load_not_mem_keys (l : List Record) (c : Code)
    (h : ∀ r ∈ l, r.lookup codeKey = c → (get_translatable_strings r).1 = []) :
    c ∉ (((load_translatable_dict l).1).map Prod.fst) := by
  intro hc
  rcases List.mem_map.1 hc with ⟨kv, hkv, hk⟩
  rcases load_mem l hkv with ⟨r, hr, h1, h2, h3⟩
  have h4 := h r hr (hk ▸ h1)
  rw [h4] at h2
  rw [← h2] at h3
  cases h3

/-! ### Text lemmas for the round-trip proofs -/

theorem skipWs_append_ws {w : List Char} (t : List Char)
    (h : ∀ c ∈ w, isWs c = true) : skipWs (w ++ t) = skipWs t := by
  induction w with
  | nil => rfl
  | cons c w ih =>
    rw [List.cons_append, skipWs, List.dropWhile_cons,
      if_pos (h c (List.mem_cons_self c w))]
    exact ih (fun c hc => h c (List.mem_cons_of_mem _ hc))

theorem skipWs_not_ws {c : Char} (t : List Char) (h : isWs c = false) :
    skipWs (c :: t) = c :: t := by
  rw [skipWs, List.dropWhile_cons, h]
  simp

theorem textOf_lcat (ind : Nat → List Char) (A B : Frag) :
    textOf ind (lcat A B) = textOf ind A ++ textOf ind B := by
  rcases A with ⟨h, ls⟩
  rcases ls with _ | ⟨p, ps⟩
  · simp [lcat, textOf, List.append_assoc]
  · show textOf ind (h, attachLast (p :: ps) B.1 ++ B.2) = _
    simp only [textOf]
    rw [List.map_append, List.flatten_append]
    have key : ∀ (qs : List (Nat × List Char)) (q : Nat × List Char),
        ((attachLast (q :: qs) B.1).map
          (fun p => '\n' :: (ind p.1 ++ p.2))).flatten
        = (((q :: qs).map (fun p => '\n' :: (ind p.1 ++ p.2))).flatten) ++ B.1 := by
      intro qs
      induction qs with
      | nil =>
        intro q
        simp [attachLast, List.append_assoc]
      | cons q' qs ih =>
        intro q
        show ((q :: attachLast (q' :: qs) B.1).map _).flatten = _
        simp only [List.map_cons, List.flatten_cons, ih q', List.append_assoc]
    rw [key ps p]
    simp [List.append_assoc]

theorem textOf_nlAt (ind : Nat → List Char) (k : Nat) (B : Frag) :
    textOf ind (nlAt k B) = '\n' :: (ind k ++ textOf ind B) := by
  rcases B with ⟨h, ls⟩
  simp [nlAt, textOf, List.append_assoc]

theorem textOf_single (ind : Nat → List Char) (h : List Char) :
    textOf ind (h, []) = h := by
  simp [textOf]

/-! ### Digits and escapes -/

theorem digitChar_facts : ∀ m < 16,
    (Nat.digitChar m ≠ '\n' ∧ Nat.digitChar m ≠ ' ' ∧
     hexVal (Nat.digitChar m) = some m) := by decide

theorem digitChar_digit : ∀ m < 10,
    ((Nat.digitChar m).isDigit = true ∧ (Nat.digitChar m).toNat - 48 = m) := by
  decide

theorem natDigitsAux_spec : ∀ (n fuel : Nat), n < fuel →
    (natDigitsAux fuel n ≠ []
     ∧ (∀ c ∈ natDigitsAux fuel n, c.isDigit = true)
     ∧ natFromDigits (natDigitsAux fuel n) = n) := by
  intro n
  induction n using Nat.strong_induction_on with
  | _ n ih =>
    intro fuel hf
    obtain ⟨f, rfl⟩ : ∃ f, fuel = f + 1 := ⟨fuel - 1, by omega⟩
    by_cases h10 : n < 10
    · rw [natDigitsAux, if_pos h10]
      refine ⟨by simp, ?_, ?_⟩
      · intro c hc
        rcases List.mem_singleton.1 hc with rfl
        exact (digitChar_digit n h10).1
      · show natFromDigits [Nat.digitChar n] = n
        have := (digitChar_digit n h10).2
        simp only [natFromDigits, List.foldl_cons, List.foldl_nil]
        omega
    · rw [natDigitsAux, if_neg h10]
      have hdiv : n / 10 < n := Nat.div_lt_self (by omega) (by omega)
      have hdf : n / 10 < f := by omega
      obtain ⟨hne, hdig, hval⟩ := ih (n / 10) hdiv f hdf
      refine ⟨by simp, ?_, ?_⟩
      · intro c hc
        rcases List.mem_append.1 hc with hc | hc
        · exact hdig c hc
        · rcases List.mem_singleton.1 hc with rfl
          exact (digitChar_digit (n % 10) (Nat.mod_lt n (by omega))).1
      · have hfold : ∀ (ds : List Char) (d : Char),
            natFromDigits (ds ++ [d])
              = natFromDigits ds * 10 + (d.toNat - 48) := by
          intro ds d
          simp [natFromDigits, List.foldl_append]
        rw [hfold, hval, (digitChar_digit (n % 10) (Nat.mod_lt n (by omega))).2]
        omega

theorem natDigits_spec (n : Nat) :
    natDigits n ≠ []
    ∧ (∀ c ∈ natDigits n, c.isDigit = true)
    ∧ natFromDigits (natDigits n) = n :=
  natDigitsAux_spec n (n + 1) (by omega)

theorem takeWhile_append_all {p : Char → Bool} {a : List Char}
    (b : List Char) (ha : ∀ c ∈ a, p c = true)
    (hb : ∀ c, b.head? = some c → p c = false) :
    (a ++ b).takeWhile p = a ∧ (a ++ b).dropWhile p = b := by
  induction a with
  | nil =>
    rcases b with _ | ⟨c, b⟩
    · exact ⟨rfl, rfl⟩
    · have := hb c rfl
      constructor
      · simp [List.takeWhile_cons, this]
      · simp [List.dropWhile_cons, this]
  | cons x a ih =>
    have hx := ha x (List.mem_cons_self x a)
    obtain ⟨h1, h2⟩ := ih (fun c hc => ha c (List.mem_cons_of_mem _ hc))
    constructor
    · simp [List.takeWhile_cons, hx, h1]
    · simp [List.dropWhile_cons, hx, h2]

theorem parseNat_digits (n : Nat) (rest : List Char)
    (hrest : ∀ c, rest.head? = some c →
      (c.isDigit = false ∧ ¬(c = '.' ∨ c = 'e' ∨ c = 'E'))) :
    parseNat (natDigits n ++ rest) = some (n, rest) := by
  obtain ⟨hne, hdig, hval⟩ := natDigits_spec n
  obtain ⟨ht, hd⟩ := takeWhile_append_all rest hdig
    (fun c hc => (hrest c hc).1)
  rw [parseNat]
  simp only [ht, hd]
  rw [if_neg (by simp [hne])]
  rcases hr : rest with _ | ⟨c, rest'⟩
  · simp [hval]
  · have := (hrest c (by rw [hr]; rfl)).2
    dsimp only
    rw [if_neg this]
    simp [hval]

/-- The parser step through a `\u` escape with four hex digits. -/
theorem parseStrBody_u (fuel : Nat) (h1 h2 h3 h4 : Char) (a b c2 d : Nat)
    (t : List Char) (e1 : hexVal h1 = some a) (e2 : hexVal h2 = some b)
    (e3 : hexVal h3 = some c2) (e4 : hexVal h4 = some d) :
    parseStrBody (fuel + 1) ('\\' :: 'u' :: h1 :: h2 :: h3 :: h4 :: t)
      = (parseStrBody fuel t).map
          (fun r => (Char.ofNat (((a * 16 + b) * 16 + c2) * 16 + d) :: r.1,
            r.2)) := by
  simp [parseStrBody, e1, e2, e3, e4]

/-- The components of `escChar` by case; used to drive the parser through
one escaped character. -/
theorem parseStrBody_escChar (c : Char) (fuel : Nat) (t : List Char)
    (k : List Char × List Char)
    (hrec : parseStrBody fuel t = some k) :
    parseStrBody (fuel + 1) (escChar c ++ t) = some (c :: k.1, k.2) := by
  by_cases h1 : c = '"'
  · subst h1
    simp [escChar, parseStrBody, hrec]
  · by_cases h2 : c = '\\'
    · subst h2
      simp [escChar, parseStrBody, hrec]
    · by_cases h3 : c = '\n'
      · subst h3
        simp [escChar, parseStrBody, hrec]
      · by_cases h4 : c = '\t'
        · subst h4
          simp [escChar, parseStrBody, hrec]
        · by_cases h5 : c = '\r'
          · subst h5
            simp [escChar, parseStrBody, hrec]
          · by_cases h6 : c = Char.ofNat 8
            · subst h6
              simp [escChar, parseStrBody, hrec]
            · by_cases h7 : c = Char.ofNat 12
              · subst h7
                simp [escChar, parseStrBody, hrec]
              · by_cases h8 : c.toNat < 32
                · have h9 : escChar c = ['\\', 'u', '0', '0',
                      Nat.digitChar (c.toNat / 16),
                      Nat.digitChar (c.toNat % 16)] := by
                    rw [escChar, if_neg h1, if_neg h2, if_neg h3, if_neg h4,
                      if_neg h5, if_neg h6, if_neg h7, if_pos h8]
                  rw [h9]
                  have e1 : hexVal '0' = some 0 := by decide
                  have e2 : hexVal (Nat.digitChar (c.toNat / 16))
                      = some (c.toNat / 16) :=
                    (digitChar_facts (c.toNat / 16) (by omega)).2.2
                  have e3 : hexVal (Nat.digitChar (c.toNat % 16))
                      = some (c.toNat % 16) :=
                    (digitChar_facts (c.toNat % 16) (by omega)).2.2
                  have hstep := parseStrBody_u fuel '0' '0'
                    (Nat.digitChar (c.toNat / 16)) (Nat.digitChar (c.toNat % 16))
                    0 0 (c.toNat / 16) (c.toNat % 16) t e1 e1 e2 e3
                  rw [show ('\\' :: 'u' :: '0' :: '0' ::
                      Nat.digitChar (c.toNat / 16) ::
                      Nat.digitChar (c.toNat % 16) :: []) ++ t
                    = '\\' :: 'u' :: '0' :: '0' ::
                      Nat.digitChar (c.toNat / 16) ::
                      Nat.digitChar (c.toNat % 16) :: t from rfl, hstep, hrec]
                  have hn : ((0 * 16 + 0) * 16 + c.toNat / 16) * 16
                      + c.toNat % 16 = c.toNat := by omega
                  simp only [Option.map_some, hn, Char.ofNat_toNat]
                  rfl
                · have h9 : escChar c = [c] := by
                    rw [escChar, if_neg h1, if_neg h2, if_neg h3, if_neg h4,
                      if_neg h5, if_neg h6, if_neg h7, if_neg h8]
                  rw [h9]
                  show parseStrBody (fuel + 1) (c :: t) = _
                  simp only [parseStrBody]
                  rw [if_neg h1, if_neg h2]
                  simp [hrec]

theorem parseStrBody_escape : ∀ (s : List Char) (fuel : Nat)
    (rest : List Char), s.length + 1 ≤ fuel →
    parseStrBody fuel (escape s ++ '"' :: rest) = some (s, rest) := by
  intro s
  induction s with
  | nil =>
    intro fuel rest h
    obtain ⟨f, rfl⟩ : ∃ f, fuel = f + 1 := ⟨fuel - 1, by omega⟩
    show parseStrBody (f + 1) ('"' :: rest) = _
    simp [parseStrBody]
  | cons c s ih =>
    intro fuel rest h
    obtain ⟨f, rfl⟩ : ∃ f, fuel = f + 1 := ⟨fuel - 1, by omega⟩
    have hf : s.length + 1 ≤ f := by
      simp only [List.length_cons] at h
      omega
    have he : escape (c :: s) = escChar c ++ escape s := by
      simp [escape]
    rw [he, List.append_assoc]
    exact parseStrBody_escChar c f _ (s, rest) (ih f rest hf)

/-! ### Parser navigation lemmas -/

theorem parseVal_ws (m : Nat) {w : List Char} (t : List Char)
    (h : ∀ c ∈ w, isWs c = true) :
    parseVal m (w ++ t) = parseVal m t := by
  cases m with
  | zero => rfl
  | succ f => simp only [parseVal, skipWs_append_ws t h]

theorem sepOk_comma (t : List Char) : SepOk (',' :: t) := by
  intro c hc
  rw [List.head?_cons, Option.some.injEq] at hc
  subst hc
  exact Or.inl rfl

theorem sepOk_newline (t : List Char) : SepOk ('\n' :: t) := by
  intro c hc
  rw [List.head?_cons, Option.some.injEq] at hc
  subst hc
  exact Or.inr (Or.inl rfl)

theorem sepOk_not_digit {t : List Char} (h : SepOk t) :
    ∀ c, t.head? = some c →
      (c.isDigit = false ∧ ¬(c = '.' ∨ c = 'e' ∨ c = 'E')) := by
  intro c hc
  rcases h c hc with rfl | rfl | rfl | rfl <;> exact ⟨by decide, by decide⟩

theorem digit_head_facts {c : Char} (h : c.isDigit = true) :
    c ≠ 'n' ∧ c ≠ 't' ∧ c ≠ 'f' ∧ c ≠ '"' ∧ c ≠ '-' ∧ c ≠ ']'
    ∧ isWs c = false := by
  have w1 : c ≠ ' ' := by rintro rfl; exact absurd h (by decide)
  have w2 : c ≠ '\t' := by rintro rfl; exact absurd h (by decide)
  have w3 : c ≠ '\n' := by rintro rfl; exact absurd h (by decide)
  have w4 : c ≠ '\r' := by rintro rfl; exact absurd h (by decide)
  refine ⟨?_, ?_, ?_, ?_, ?_, ?_, ?_⟩
  · rintro rfl; exact absurd h (by decide)
  · rintro rfl; exact absurd h (by decide)
  · rintro rfl; exact absurd h (by decide)
  · rintro rfl; exact absurd h (by decide)
  · rintro rfl; exact absurd h (by decide)
  · rintro rfl; exact absurd h (by decide)
  · simp [isWs, w1, w2, w3, w4]

theorem attachLast_cons_ne_nil (p : Nat × List Char)
    (ps : List (Nat × List Char)) (h : List Char) :
    attachLast (p :: ps) h ≠ [] := by
  cases ps <;> simp [attachLast]

theorem lcat_fst_of_ne {A : Frag} (B : Frag) (h : A.2 ≠ []) :
    (lcat A B).1 = A.1 := by
  rcases A with ⟨ha, ls⟩
  cases ls with
  | nil => exact absurd rfl h
  | cons p ps => rfl

theorem lcat_snd_of_ne {A : Frag} (B : Frag) (h : A.2 ≠ []) :
    (lcat A B).2 = attachLast A.2 B.1 ++ B.2 := by
  rcases A with ⟨ha, ls⟩
  cases ls with
  | nil => exact absurd rfl h
  | cons p ps => rfl

/-- The first character of a rendered value: never a space, a closing
bracket, or whitespace. -/
theorem rlines_head (lvl : Nat) (y : Json) :
    ∃ c cs, (rlines lvl y).1 = c :: cs ∧ isWs c = false ∧ c ≠ ']' := by
  cases y with
  | null => exact ⟨'n', _, rfl, by decide, by decide⟩
  | bool b => cases b with
    | true => exact ⟨'t', _, rfl, by decide, by decide⟩
    | false => exact ⟨'f', _, rfl, by decide, by decide⟩
  | num n =>
    cases n with
    | ofNat m =>
      obtain ⟨hne, hdig, _⟩ := natDigits_spec m
      rcases hd : natDigits m with _ | ⟨c, cs⟩
      · exact absurd hd hne
      · have hc : c.isDigit = true := hdig c (by rw [hd]; exact List.mem_cons_self c cs)
        obtain ⟨_, _, _, _, _, h6, h7⟩ := digit_head_facts hc
        refine ⟨c, cs, ?_, h7, h6⟩
        show intText (Int.ofNat m) = c :: cs
        rw [intText, hd]
    | negSucc m =>
      exact ⟨'-', _, rfl, by decide, by decide⟩
  | str s => exact ⟨'"', _, rfl, by decide, by decide⟩
  | arr xs =>
    cases xs with
    | nil => exact ⟨'[', _, rfl, by decide, by decide⟩
    | cons x xs =>
      refine ⟨'[', [], ?_, by decide, by decide⟩
      show (lcat (lcat (lcat (['['], []) (nlAt (lvl + 1) (rlines (lvl + 1) x)))
          (rlinesItems (lvl + 1) xs)) (nlAt lvl ([']'], []))).1 = ['[']
      have h1 : (lcat (['['], []) (nlAt (lvl + 1) (rlines (lvl + 1) x)))
          = (['['], (lvl + 1, (rlines (lvl + 1) x).1) :: (rlines (lvl + 1) x).2) := by
        rfl
      rw [h1]
      have h2 : ((['['], (lvl + 1, (rlines (lvl + 1) x).1)
          :: (rlines (lvl + 1) x).2) : Frag).2 ≠ [] := by simp
      rw [lcat_fst_of_ne _ (by
        rw [lcat_snd_of_ne _ h2]
        simp [attachLast_cons_ne_nil])]
      rw [lcat_fst_of_ne _ h2]
  | obj fs =>
    cases fs with
    | nil => exact ⟨Char.ofNat 123, _, rfl, by decide, by decide⟩
    | cons kv fs =>
      refine ⟨Char.ofNat 123, [], ?_, by decide, by decide⟩
      show (lcat (lcat (lcat ([Char.ofNat 123], [])
          (nlAt (lvl + 1) (rlinesMember (lvl + 1) kv)))
          (rlinesFields (lvl + 1) fs)) (nlAt lvl ([Char.ofNat 125], []))).1
        = [Char.ofNat 123]
      have h1 : (lcat ([Char.ofNat 123], [])
            (nlAt (lvl + 1) (rlinesMember (lvl + 1) kv)))
          = ([Char.ofNat 123], (lvl + 1, (rlinesMember (lvl + 1) kv).1)
              :: (rlinesMember (lvl + 1) kv).2) := by
        rfl
      rw [h1]
      have h2 : (([Char.ofNat 123], (lvl + 1, (rlinesMember (lvl + 1) kv).1)
          :: (rlinesMember (lvl + 1) kv).2) : Frag).2 ≠ [] := by simp
      rw [lcat_fst_of_ne _ (by
        rw [lcat_snd_of_ne _ h2]
        simp [attachLast_cons_ne_nil])]
      rw [lcat_fst_of_ne _ h2]

/-! ### Rendered text of containers -/

theorem textOf_items_nil (ind : Nat → List Char) (lvl : Nat) :
    textOf ind (rlinesItems lvl []) = [] := rfl

theorem textOf_fields_nil (ind : Nat → List Char) (lvl : Nat) :
    textOf ind (rlinesFields lvl []) = [] := rfl

theorem textOf_arr_cons (ind : Nat → List Char) (lvl : Nat) (x : Json)
    (xs : List Json) (X : List Char) :
    textOf ind (rlines lvl (.arr (x :: xs))) ++ X
      = '[' :: '\n' :: (ind (lvl + 1)
          ++ (textOf ind (rlines (lvl + 1) x)
            ++ (textOf ind (rlinesItems (lvl + 1) xs)
              ++ '\n' :: (ind lvl ++ (']' :: X))))) := by
  show textOf ind (lcat (lcat (lcat (['['], [])
      (nlAt (lvl + 1) (rlines (lvl + 1) x))) (rlinesItems (lvl + 1) xs))
      (nlAt lvl ([']'], []))) ++ X = _
  rw [textOf_lcat, textOf_lcat, textOf_lcat, textOf_nlAt, textOf_nlAt,
    textOf_single, textOf_single]
  simp [List.append_assoc]

theorem textOf_items_cons (ind : Nat → List Char) (lvl : Nat) (z : Json)
    (zs : List Json) (X : List Char) :
    textOf ind (rlinesItems lvl (z :: zs)) ++ X
      = ',' :: '\n' :: (ind lvl
          ++ (textOf ind (rlines lvl z)
            ++ (textOf ind (rlinesItems lvl zs) ++ X))) := by
  show textOf ind (lcat (lcat ([','], []) (nlAt lvl (rlines lvl z)))
      (rlinesItems lvl zs)) ++ X = _
  rw [textOf_lcat, textOf_lcat, textOf_nlAt, textOf_single]
  simp [List.append_assoc]

theorem textOf_member (ind : Nat → List Char) (lvl : Nat)
    (kv : List Char × Json) (X : List Char) :
    textOf ind (rlinesMember lvl kv) ++ X
      = '"' :: (escape kv.1
          ++ ('"' :: ':' :: ' ' :: (textOf ind (rlines lvl kv.2) ++ X))) := by
  rw [rlinesMember, textOf_lcat, textOf_single, keyText]
  simp [List.append_assoc]

theorem textOf_obj_cons (ind : Nat → List Char) (lvl : Nat)
    (kv : List Char × Json) (fs : List (List Char × Json)) (X : List Char) :
    textOf ind (rlines lvl (.obj (kv :: fs))) ++ X
      = Char.ofNat 123 :: '\n' :: (ind (lvl + 1)
          ++ (textOf ind (rlinesMember (lvl + 1) kv)
            ++ (textOf ind (rlinesFields (lvl + 1) fs)
              ++ '\n' :: (ind lvl ++ (Char.ofNat 125 :: X))))) := by
  show textOf ind (lcat (lcat (lcat ([Char.ofNat 123], [])
      (nlAt (lvl + 1) (rlinesMember (lvl + 1) kv)))
      (rlinesFields (lvl + 1) fs)) (nlAt lvl ([Char.ofNat 125], []))) ++ X = _
  rw [textOf_lcat, textOf_lcat, textOf_lcat, textOf_nlAt, textOf_nlAt,
    textOf_single, textOf_single]
  simp [List.append_assoc]

theorem textOf_fields_cons (ind : Nat → List Char) (lvl : Nat)
    (kv : List Char × Json) (fs : List (List Char × Json)) (X : List Char) :
    textOf ind (rlinesFields lvl (kv :: fs)) ++ X
      = ',' :: '\n' :: (ind lvl
          ++ (textOf ind (rlinesMember lvl kv)
            ++ (textOf ind (rlinesFields lvl fs) ++ X))) := by
  show textOf ind (lcat (lcat ([','], []) (nlAt lvl (rlinesMember lvl kv)))
      (rlinesFields lvl fs)) ++ X = _
  rw [textOf_lcat, textOf_lcat, textOf_nlAt, textOf_single]
  simp [List.append_assoc]

theorem sepOk_items_tail (ind : Nat → List Char) (lvl : Nat) (zs : List Json)
    (t : List Char) :
    SepOk (textOf ind (rlinesItems lvl zs) ++ '\n' :: t) := by
  cases zs with
  | nil => rw [textOf_items_nil]; exact sepOk_newline t
  | cons z zs =>
    rw [textOf_items_cons]
    exact sepOk_comma _

theorem sepOk_fields_tail (ind : Nat → List Char) (lvl : Nat)
    (fs : List (List Char × Json)) (t : List Char) :
    SepOk (textOf ind (rlinesFields lvl fs) ++ '\n' :: t) := by
  cases fs with
  | nil => rw [textOf_fields_nil]; exact sepOk_newline t
  | cons kv fs =>
    rw [textOf_fields_cons]
    exact sepOk_comma _

/-! ### Parser correctness on rendered values -/

theorem parse_render (ind : Nat → List Char) (hws : WsInd ind) :
    ∀ y : Json, ∀ (lvl : Nat) (rest : List Char) (fuel : Nat),
      SepOk rest → fuelNeed y ≤ fuel →
      parseVal fuel (textOf ind (rlines lvl y) ++ rest) = some (y, rest) := by
  have hnlws : ∀ (k : Nat) (c : Char), c ∈ '\n' :: ind k → isWs c = true := by
    intro k c hc
    rcases List.mem_cons.1 hc with rfl | hc
    · decide
    · exact hws k c hc
  intro y
  induction y using Json.recMem with
  | h1 =>
    intro lvl rest fuel hsep hfuel
    obtain ⟨f, rfl⟩ : ∃ f, fuel = f + 1 := ⟨fuel - 1, by
      have : fuelNeed Json.null = 1 := rfl
      omega⟩
    have ht : textOf ind (rlines lvl .null) ++ rest
        = 'n' :: 'u' :: 'l' :: 'l' :: rest := by
      rw [show rlines lvl .null = (('n' :: 'u' :: 'l' :: 'l' :: []), [])
        from rfl, textOf_single]
      rfl
    rw [ht]
    rfl
  | h2 b =>
    intro lvl rest fuel hsep hfuel
    obtain ⟨f, rfl⟩ : ∃ f, fuel = f + 1 := ⟨fuel - 1, by
      have : fuelNeed (Json.bool b) = 1 := rfl
      omega⟩
    cases b with
    | true =>
      have ht : textOf ind (rlines lvl (.bool true)) ++ rest
          = 't' :: 'r' :: 'u' :: 'e' :: rest := by
        rw [show rlines lvl (.bool true) = (('t' :: 'r' :: 'u' :: 'e' :: []), [])
          from rfl, textOf_single]
        rfl
      rw [ht]
      rfl
    | false =>
      have ht : textOf ind (rlines lvl (.bool false)) ++ rest
          = 'f' :: 'a' :: 'l' :: 's' :: 'e' :: rest := by
        rw [show rlines lvl (.bool false)
          = (('f' :: 'a' :: 'l' :: 's' :: 'e' :: []), []) from rfl,
          textOf_single]
        rfl
      rw [ht]
      rfl
  | h3 n =>
    intro lvl rest fuel hsep hfuel
    obtain ⟨f, rfl⟩ : ∃ f, fuel = f + 1 := ⟨fuel - 1, by
      have : fuelNeed (Json.num n) = 1 := rfl
      omega⟩
    cases n with
    | ofNat m =>
      obtain ⟨hne, hdig, _⟩ := natDigits_spec m
      rcases hd : natDigits m with _ | ⟨c, cs⟩
      · exact absurd hd hne
      · have hc : c.isDigit = true :=
          hdig c (by rw [hd]; exact List.mem_cons_self c cs)
        obtain ⟨g1, g2, g3, g4, g5, _, g7⟩ := digit_head_facts hc
        have ht : textOf ind (rlines lvl (.num (Int.ofNat m))) ++ rest
            = c :: (cs ++ rest) := by
          rw [show rlines lvl (.num (Int.ofNat m)) = (intText (Int.ofNat m), [])
            from rfl, textOf_single, intText, hd]
          rfl
        rw [ht]
        simp only [parseVal]
        rw [skipWs_not_ws _ g7]
        dsimp only
        rw [if_neg g1, if_neg g2, if_neg g3, if_neg g4, if_neg g5, if_pos hc]
        rw [show (c :: (cs ++ rest)) = natDigits m ++ rest from by rw [hd]; rfl]
        rw [parseNat_digits m rest (sepOk_not_digit hsep)]
        rfl
    | negSucc m =>
      have ht : textOf ind (rlines lvl (.num (Int.negSucc m))) ++ rest
          = '-' :: (natDigits (m + 1) ++ rest) := by
        rw [show rlines lvl (.num (Int.negSucc m)) = (intText (Int.negSucc m), [])
          from rfl, textOf_single, intText]
        rfl
      rw [ht]
      show (parseNat (natDigits (m + 1) ++ rest)).map
          (fun p => (Json.num (-(p.1 : Int)), p.2)) = _
      rw [parseNat_digits (m + 1) rest (sepOk_not_digit hsep)]
      show some (Json.num (-((m + 1 : Nat) : Int)), rest)
        = some (Json.num (Int.negSucc m), rest)
      have hnum : (-((m + 1 : Nat) : Int)) = Int.negSucc m := by
        rw [Int.negSucc_eq]
        push_cast
        ring
      rw [hnum]
  | h4 s =>
    intro lvl rest fuel hsep hfuel
    obtain ⟨f, rfl⟩ : ∃ f, fuel = f + 1 := ⟨fuel - 1, by
      have : fuelNeed (Json.str s) = s.length + 2 := rfl
      omega⟩
    have ht : textOf ind (rlines lvl (.str s)) ++ rest
        = '"' :: (escape s ++ '"' :: rest) := by
      rw [show rlines lvl (.str s) = ('"' :: escape s ++ ['"'], []) from rfl,
        textOf_single]
      simp
    rw [ht]
    show (parseStrBody f (escape s ++ '"' :: rest)).map
        (fun p => (Json.str p.1, p.2)) = _
    rw [parseStrBody_escape s f rest (by
      have : fuelNeed (Json.str s) = s.length + 2 := rfl
      omega)]
    rfl
  | h5 xs hIH =>
    intro lvl rest fuel hsep hfuel
    cases xs with
    | nil =>
      obtain ⟨f, rfl⟩ : ∃ f, fuel = f + 1 := ⟨fuel - 1, by
        have : fuelNeed (Json.arr []) = 3 := rfl
        omega⟩
      obtain ⟨g, rfl⟩ : ∃ g, f = g + 1 := ⟨f - 1, by
        have : fuelNeed (Json.arr []) = 3 := rfl
        omega⟩
      have ht : textOf ind (rlines lvl (.arr [])) ++ rest
          = '[' :: ']' :: rest := by
        rw [show rlines lvl (.arr []) = (['[', ']'], []) from rfl,
          textOf_single]
        rfl
      rw [ht]
      rfl
    | cons x xs =>
      have hfuel2 : fuelNeed x + fuelNeedList xs + 3 ≤ fuel := by
        have : fuelNeed (Json.arr (x :: xs))
            = fuelNeed x + fuelNeedList xs + 1 + 2 := rfl
        omega
      obtain ⟨f, rfl⟩ : ∃ f, fuel = f + 1 := ⟨fuel - 1, by omega⟩
      obtain ⟨g, rfl⟩ : ∃ g, f = g + 1 := ⟨f - 1, by omega⟩
      -- the continuation-parsing loop for the remaining items
      have inner : ∀ (zs : List Json),
          (∀ z ∈ zs, ∀ (lvl2 : Nat) (rest2 : List Char) (fuel2 : Nat),
            SepOk rest2 → fuelNeed z ≤ fuel2 →
            parseVal fuel2 (textOf ind (rlines lvl2 z) ++ rest2)
              = some (z, rest2)) →
          ∀ (lvl2 : Nat) (w : List Char), (∀ c ∈ w, isWs c = true) →
          ∀ (rest2 : List Char) (fuel2 : Nat), SepOk rest2 →
          fuelNeedList zs ≤ fuel2 →
          parseArrRest fuel2 (textOf ind (rlinesItems lvl2 zs)
            ++ '\n' :: (w ++ (']' :: rest2))) = some (zs, rest2) := by
        intro zs
        induction zs with
        | nil =>
          intro _ lvl2 w hw rest2 fuel2 hsep2 hf2
          obtain ⟨m, rfl⟩ : ∃ m, fuel2 = m + 1 := ⟨fuel2 - 1, by
            have : fuelNeedList ([] : List Json) = 1 := rfl
            omega⟩
          rw [textOf_items_nil, List.nil_append]
          simp only [parseArrRest]
          rw [show ('\n' :: (w ++ (']' :: rest2)))
            = ('\n' :: w) ++ (']' :: rest2) from by simp]
          rw [skipWs_append_ws _ (by
            intro c hc
            rcases List.mem_cons.1 hc with rfl | hc
            · decide
            · exact hw c hc)]
          rw [skipWs_not_ws _ (by decide)]
          rfl
        | cons z zs ih =>
          intro hmem lvl2 w hw rest2 fuel2 hsep2 hf2
          have hfz : fuelNeed z + fuelNeedList zs + 1 ≤ fuel2 := by
            have : fuelNeedList (z :: zs)
                = fuelNeed z + fuelNeedList zs + 1 := rfl
            omega
          obtain ⟨m, rfl⟩ : ∃ m, fuel2 = m + 1 := ⟨fuel2 - 1, by omega⟩
          rw [textOf_items_cons]
          simp only [parseArrRest]
          rw [skipWs_not_ws _ (by decide)]
          dsimp only
          rw [if_neg (by decide), if_pos rfl]
          rw [show ('\n' :: (ind lvl2 ++ (textOf ind (rlines lvl2 z)
              ++ (textOf ind (rlinesItems lvl2 zs)
                ++ '\n' :: (w ++ (']' :: rest2))))))
            = ('\n' :: ind lvl2) ++ (textOf ind (rlines lvl2 z)
              ++ (textOf ind (rlinesItems lvl2 zs)
                ++ '\n' :: (w ++ (']' :: rest2)))) from by simp]
          rw [parseVal_ws m _ (hnlws lvl2)]
          rw [hmem z (List.mem_cons_self z zs) lvl2 _ m
            (sepOk_items_tail ind lvl2 zs _) (by omega)]
          dsimp only
          rw [ih (fun z2 hz2 => hmem z2 (List.mem_cons_of_mem z hz2))
            lvl2 w hw rest2 m hsep2 (by omega)]
          rfl
      rw [textOf_arr_cons]
      show parseArrItems (g + 1) ('\n' :: (ind (lvl + 1)
          ++ (textOf ind (rlines (lvl + 1) x)
            ++ (textOf ind (rlinesItems (lvl + 1) xs)
              ++ '\n' :: (ind lvl ++ (']' :: rest)))))) = _
      simp only [parseArrItems]
      obtain ⟨c, cs, hhead, hcws, hcbr⟩ := rlines_head (lvl + 1) x
      have htx : textOf ind (rlines (lvl + 1) x)
          = c :: (cs
            ++ ((rlines (lvl + 1) x).2.map
              (fun p => '\n' :: (ind p.1 ++ p.2))).flatten) := by
        rw [textOf, hhead]
        rfl
      have hskip : skipWs ('\n' :: (ind (lvl + 1)
          ++ (textOf ind (rlines (lvl + 1) x)
            ++ (textOf ind (rlinesItems (lvl + 1) xs)
              ++ '\n' :: (ind lvl ++ (']' :: rest))))))
          = c :: ((cs
            ++ ((rlines (lvl + 1) x).2.map
              (fun p => '\n' :: (ind p.1 ++ p.2))).flatten)
            ++ (textOf ind (rlinesItems (lvl + 1) xs)
              ++ '\n' :: (ind lvl ++ (']' :: rest)))) := by
        rw [show ('\n' :: (ind (lvl + 1)
            ++ (textOf ind (rlines (lvl + 1) x)
              ++ (textOf ind (rlinesItems (lvl + 1) xs)
                ++ '\n' :: (ind lvl ++ (']' :: rest))))))
          = ('\n' :: ind (lvl + 1)) ++ (textOf ind (rlines (lvl + 1) x)
            ++ (textOf ind (rlinesItems (lvl + 1) xs)
              ++ '\n' :: (ind lvl ++ (']' :: rest)))) from by simp]
        rw [skipWs_append_ws _ (hnlws (lvl + 1)), htx]
        rw [show (c :: (cs ++ ((rlines (lvl + 1) x).2.map
            (fun p => '\n' :: (ind p.1 ++ p.2))).flatten))
            ++ (textOf ind (rlinesItems (lvl + 1) xs)
              ++ '\n' :: (ind lvl ++ (']' :: rest)))
          = c :: ((cs ++ ((rlines (lvl + 1) x).2.map
            (fun p => '\n' :: (ind p.1 ++ p.2))).flatten)
            ++ (textOf ind (rlinesItems (lvl + 1) xs)
              ++ '\n' :: (ind lvl ++ (']' :: rest)))) from by simp]
        rw [skipWs_not_ws _ hcws]
      rw [hskip]
      dsimp only
      rw [if_neg hcbr]
      rw [show ('\n' :: (ind (lvl + 1)
          ++ (textOf ind (rlines (lvl + 1) x)
            ++ (textOf ind (rlinesItems (lvl + 1) xs)
              ++ '\n' :: (ind lvl ++ (']' :: rest))))))
        = ('\n' :: ind (lvl + 1)) ++ (textOf ind (rlines (lvl + 1) x)
          ++ (textOf ind (rlinesItems (lvl + 1) xs)
            ++ '\n' :: (ind lvl ++ (']' :: rest)))) from by simp]
      rw [parseVal_ws g _ (hnlws (lvl + 1))]
      rw [hIH x (List.mem_cons_self x xs) (lvl + 1) _ g
        (sepOk_items_tail ind (lvl + 1) xs _) (by omega)]
      dsimp only
      rw [inner xs
        (fun z hz => hIH z (List.mem_cons_of_mem x hz))
        (lvl + 1) (ind lvl) (fun c2 hc2 => hws lvl c2 hc2) rest g
        hsep (by omega)]
      rfl
  | h6 fs hIH =>
    intro lvl rest fuel hsep hfuel
    cases fs with
    | nil =>
      obtain ⟨f, rfl⟩ : ∃ f, fuel = f + 1 := ⟨fuel - 1, by
        have : fuelNeed (Json.obj []) = 3 := rfl
        omega⟩
      obtain ⟨g, rfl⟩ : ∃ g, f = g + 1 := ⟨f - 1, by
        have : fuelNeed (Json.obj []) = 3 := rfl
        omega⟩
      have ht : textOf ind (rlines lvl (.obj [])) ++ rest
          = Char.ofNat 123 :: Char.ofNat 125 :: rest := by
        rw [show rlines lvl (.obj []) = ([Char.ofNat 123, Char.ofNat 125], [])
          from rfl, textOf_single]
        rfl
      rw [ht]
      rfl
    | cons kv fs =>
      have hfuel2 : kv.1.length + fuelNeed kv.2 + fuelNeedFields fs + 4
          ≤ fuel := by
        have : fuelNeed (Json.obj (kv :: fs))
            = kv.1.length + fuelNeed kv.2 + fuelNeedFields fs + 2 + 2 := rfl
        omega
      obtain ⟨f, rfl⟩ : ∃ f, fuel = f + 1 := ⟨fuel - 1, by omega⟩
      obtain ⟨g, rfl⟩ : ∃ g, f = g + 1 := ⟨f - 1, by omega⟩
      have hmemtext : ∀ (lvl2 : Nat) (kv2 : List Char × Json)
          (X : List Char) (fuel2 : Nat),
          fuelNeed kv2.2 ≤ fuel2 → kv2.1.length + 1 ≤ fuel2 → SepOk X →
          (∀ z ∈ [kv2.2], ∀ (lvl3 : Nat) (rest3 : List Char) (fuel3 : Nat),
            SepOk rest3 → fuelNeed z ≤ fuel3 →
            parseVal fuel3 (textOf ind (rlines lvl3 z) ++ rest3)
              = some (z, rest3)) →
          (parseStrBody fuel2 (escape kv2.1
              ++ '"' :: ':' :: ' ' :: (textOf ind (rlines lvl2 kv2.2) ++ X)))
            = some (kv2.1, ':' :: ' ' :: (textOf ind (rlines lvl2 kv2.2) ++ X))
          ∧ parseVal fuel2 (' ' :: (textOf ind (rlines lvl2 kv2.2) ++ X))
            = some (kv2.2, X) := by
        intro lvl2 kv2 X fuel2 hf1 hf2 hX hPz
        constructor
        · exact parseStrBody_escape kv2.1 fuel2 _ hf2
        · rw [show (' ' :: (textOf ind (rlines lvl2 kv2.2) ++ X))
            = [' '] ++ (textOf ind (rlines lvl2 kv2.2) ++ X) from rfl]
          rw [parseVal_ws fuel2 _ (by intro c hc; rcases List.mem_singleton.1 hc with rfl; decide)]
          exact hPz kv2.2 (List.mem_singleton.2 rfl) lvl2 X fuel2 hX hf1
      have inner : ∀ (gs : List (List Char × Json)),
          (∀ z ∈ gs, ∀ (lvl2 : Nat) (rest2 : List Char) (fuel2 : Nat),
            SepOk rest2 → fuelNeed z.2 ≤ fuel2 →
            parseVal fuel2 (textOf ind (rlines lvl2 z.2) ++ rest2)
              = some (z.2, rest2)) →
          ∀ (lvl2 : Nat) (w : List Char), (∀ c ∈ w, isWs c = true) →
          ∀ (rest2 : List Char) (fuel2 : Nat), SepOk rest2 →
          fuelNeedFields gs ≤ fuel2 →
          parseObjRest fuel2 (textOf ind (rlinesFields lvl2 gs)
            ++ '\n' :: (w ++ (Char.ofNat 125 :: rest2))) = some (gs, rest2) := by
        intro gs
        induction gs with
        | nil =>
          intro _ lvl2 w hw rest2 fuel2 hsep2 hf2
          obtain ⟨m, rfl⟩ : ∃ m, fuel2 = m + 1 := ⟨fuel2 - 1, by
            have : fuelNeedFields ([] : List (List Char × Json)) = 1 := rfl
            omega⟩
          rw [textOf_fields_nil, List.nil_append]
          simp only [parseObjRest]
          rw [show ('\n' :: (w ++ (Char.ofNat 125 :: rest2)))
            = ('\n' :: w) ++ (Char.ofNat 125 :: rest2) from by simp]
          rw [skipWs_append_ws _ (by
            intro c hc
            rcases List.mem_cons.1 hc with rfl | hc
            · decide
            · exact hw c hc)]
          rw [skipWs_not_ws _ (by decide)]
          rfl
        | cons z zs ih =>
          intro hmem lvl2 w hw rest2 fuel2 hsep2 hf2
          have hfz : z.1.length + fuelNeed z.2 + fuelNeedFields zs + 2
              ≤ fuel2 := by
            have : fuelNeedFields (z :: zs)
                = z.1.length + fuelNeed z.2 + fuelNeedFields zs + 2 := rfl
            omega
          obtain ⟨m, rfl⟩ : ∃ m, fuel2 = m + 1 := ⟨fuel2 - 1, by omega⟩
          rw [textOf_fields_cons]
          simp only [parseObjRest]
          rw [skipWs_not_ws _ (by decide)]
          dsimp only
          rw [if_neg (by decide), if_pos rfl]
          rw [show ('\n' :: (ind lvl2 ++ (textOf ind (rlinesMember lvl2 z)
              ++ (textOf ind (rlinesFields lvl2 zs)
                ++ '\n' :: (w ++ (Char.ofNat 125 :: rest2))))))
            = ('\n' :: ind lvl2) ++ (textOf ind (rlinesMember lvl2 z)
              ++ (textOf ind (rlinesFields lvl2 zs)
                ++ '\n' :: (w ++ (Char.ofNat 125 :: rest2)))) from by simp]
          rw [skipWs_append_ws _ (hnlws lvl2)]
          rw [textOf_member]
          rw [skipWs_not_ws _ (by decide)]
          dsimp only
          rw [if_pos rfl]
          obtain ⟨hkey, hval⟩ := hmemtext lvl2 z
            (textOf ind (rlinesFields lvl2 zs)
              ++ '\n' :: (w ++ (Char.ofNat 125 :: rest2))) m
            (by omega) (by omega)
            (sepOk_fields_tail ind lvl2 zs _)
            (fun z2 hz2 => by
              rcases List.mem_singleton.1 hz2 with rfl
              exact hmem z (List.mem_cons_self z zs))
          rw [hkey]
          dsimp only
          rw [skipWs_not_ws _ (by decide)]
          dsimp only
          rw [if_pos rfl]
          rw [hval]
          dsimp only
          rw [ih (fun z2 hz2 => hmem z2 (List.mem_cons_of_mem z hz2))
            lvl2 w hw rest2 m hsep2 (by omega)]
          rfl
      rw [textOf_obj_cons]
      show parseObjItems (g + 1) ('\n' :: (ind (lvl + 1)
          ++ (textOf ind (rlinesMember (lvl + 1) kv)
            ++ (textOf ind (rlinesFields (lvl + 1) fs)
              ++ '\n' :: (ind lvl ++ (Char.ofNat 125 :: rest)))))) = _
      simp only [parseObjItems]
      rw [show ('\n' :: (ind (lvl + 1)
          ++ (textOf ind (rlinesMember (lvl + 1) kv)
            ++ (textOf ind (rlinesFields (lvl + 1) fs)
              ++ '\n' :: (ind lvl ++ (Char.ofNat 125 :: rest))))))
        = ('\n' :: ind (lvl + 1)) ++ (textOf ind (rlinesMember (lvl + 1) kv)
          ++ (textOf ind (rlinesFields (lvl + 1) fs)
            ++ '\n' :: (ind lvl ++ (Char.ofNat 125 :: rest)))) from by simp]
      rw [skipWs_append_ws _ (hnlws (lvl + 1))]
      rw [textOf_member]
      rw [skipWs_not_ws _ (by decide)]
      dsimp only
      rw [if_neg (by decide), if_pos rfl]
      obtain ⟨hkey, hval⟩ := hmemtext (lvl + 1) kv
        (textOf ind (rlinesFields (lvl + 1) fs)
          ++ '\n' :: (ind lvl ++ (Char.ofNat 125 :: rest))) g
        (by omega) (by omega)
        (sepOk_fields_tail ind (lvl + 1) fs _)
        (fun z2 hz2 => by
          rcases List.mem_singleton.1 hz2 with rfl
          exact hIH kv (List.mem_cons_self kv fs))
      rw [hkey]
      dsimp only
      rw [skipWs_not_ws _ (by decide)]
      dsimp only
      rw [if_pos rfl]
      rw [hval]
      dsimp only
      rw [inner fs (fun z hz => hIH z (List.mem_cons_of_mem kv hz))
        (lvl + 1) (ind lvl) (fun c2 hc2 => hws lvl c2 hc2) rest g
        hsep (by omega)]
      rfl

/-! ### Length of the rendered text bounds the parser fuel -/

theorem escChar_length (c : Char) : 1 ≤ (escChar c).length := by
  rw [escChar]
  split_ifs <;> simp

theorem escape_length (s : List Char) : s.length ≤ (escape s).length := by
  induction s with
  | nil => simp [escape]
  | cons c s ih =>
    have h1 : escape (c :: s) = escChar c ++ escape s := by
      simp [escape]
    rw [h1, List.length_append, List.length_cons]
    have := escChar_length c
    omega

theorem fuelNeed_le_textOf (ind : Nat → List Char) :
    ∀ (y : Json) (lvl : Nat),
      fuelNeed y ≤ (textOf ind (rlines lvl y)).length + 1 := by
  have items : ∀ (zs : List Json),
      (∀ z ∈ zs, ∀ lvl2, fuelNeed z ≤ (textOf ind (rlines lvl2 z)).length + 1) →
      ∀ lvl2, fuelNeedList zs ≤ (textOf ind (rlinesItems lvl2 zs)).length + 1 := by
    intro zs
    induction zs with
    | nil =>
      intro _ lvl2
      rw [textOf_items_nil]
      have h : fuelNeedList ([] : List Json) = 1 := rfl
      simp [h]
    | cons z zs ih =>
      intro hm lvl2
      have hz := hm z (List.mem_cons_self z zs) lvl2
      have hzs := ih (fun a ha => hm a (List.mem_cons_of_mem _ ha)) lvl2
      have hfl : fuelNeedList (z :: zs) = fuelNeed z + fuelNeedList zs + 1 := rfl
      have hlen := congrArg List.length (textOf_items_cons ind lvl2 z zs [])
      simp only [List.append_nil, List.length_cons, List.length_append] at hlen
      omega
  have fields : ∀ (gs : List (List Char × Json)),
      (∀ kv ∈ gs, ∀ lvl2,
        fuelNeed kv.2 ≤ (textOf ind (rlines lvl2 kv.2)).length + 1) →
      ∀ lvl2, fuelNeedFields gs
        ≤ (textOf ind (rlinesFields lvl2 gs)).length + 1 := by
    intro gs
    induction gs with
    | nil =>
      intro _ lvl2
      rw [textOf_fields_nil]
      have h : fuelNeedFields ([] : List (List Char × Json)) = 1 := rfl
      simp [h]
    | cons kv gs ih =>
      intro hm lvl2
      have hv := hm kv (List.mem_cons_self kv gs) lvl2
      have hgs := ih (fun a ha => hm a (List.mem_cons_of_mem _ ha)) lvl2
      have hfl : fuelNeedFields (kv :: gs)
          = kv.1.length + fuelNeed kv.2 + fuelNeedFields gs + 2 := rfl
      have hmem := congrArg List.length (textOf_member ind lvl2 kv [])
      simp only [List.append_nil, List.length_cons, List.length_append] at hmem
      have hlen := congrArg List.length (textOf_fields_cons ind lvl2 kv gs [])
      simp only [List.append_nil, List.length_cons, List.length_append] at hlen
      have hesc := escape_length kv.1
      omega
  intro y
  induction y using Json.recMem with
  | h1 =>
    intro lvl
    have h : fuelNeed Json.null = 1 := rfl
    omega
  | h2 b =>
    intro lvl
    have h : fuelNeed (Json.bool b) = 1 := rfl
    omega
  | h3 n =>
    intro lvl
    have h : fuelNeed (Json.num n) = 1 := rfl
    omega
  | h4 s =>
    intro lvl
    have hf : fuelNeed (Json.str s) = s.length + 2 := rfl
    have ht : textOf ind (rlines lvl (.str s)) = '"' :: escape s ++ ['"'] := by
      rw [show rlines lvl (.str s) = ('"' :: escape s ++ ['"'], []) from rfl,
        textOf_single]
    rw [hf, ht]
    have := escape_length s
    simp only [List.cons_append, List.length_cons, List.length_append,
      List.length_singleton]
    omega
  | h5 xs hIH =>
    intro lvl
    cases xs with
    | nil =>
      have hf : fuelNeed (Json.arr []) = 3 := rfl
      have ht : textOf ind (rlines lvl (.arr [])) = ['[', ']'] := by
        rw [show rlines lvl (.arr []) = (['[', ']'], []) from rfl, textOf_single]
      rw [hf, ht]
      simp
    | cons x xs =>
      have hf : fuelNeed (Json.arr (x :: xs))
          = fuelNeed x + fuelNeedList xs + 1 + 2 := rfl
      have hx := hIH x (List.mem_cons_self x xs) (lvl + 1)
      have hxs := items xs
        (fun z hz lvl2 => hIH z (List.mem_cons_of_mem _ hz) lvl2) (lvl + 1)
      have hlen := congrArg List.length (textOf_arr_cons ind lvl x xs [])
      simp only [List.append_nil, List.length_cons, List.length_append] at hlen
      omega
  | h6 fs hIH =>
    intro lvl
    cases fs with
    | nil =>
      have hf : fuelNeed (Json.obj []) = 3 := rfl
      have ht : textOf ind (rlines lvl (.obj []))
          = [Char.ofNat 123, Char.ofNat 125] := by
        rw [show rlines lvl (.obj []) = ([Char.ofNat 123, Char.ofNat 125], [])
          from rfl, textOf_single]
      rw [hf, ht]
      simp
    | cons kv fs =>
      have hf : fuelNeed (Json.obj (kv :: fs))
          = kv.1.length + fuelNeed kv.2 + fuelNeedFields fs + 2 + 2 := rfl
      have hv := hIH kv (List.mem_cons_self kv fs) (lvl + 1)
      have hfs := fields fs
        (fun z hz lvl2 => hIH z (List.mem_cons_of_mem _ hz) lvl2) (lvl + 1)
      have hmem := congrArg List.length (textOf_member ind (lvl + 1) kv [])
      simp only [List.append_nil, List.length_cons, List.length_append] at hmem
      have hlen := congrArg List.length (textOf_obj_cons ind lvl kv fs [])
      simp only [List.append_nil, List.length_cons, List.length_append] at hlen
      have hesc := escape_length kv.1
      omega

/-! ### The rendered fragment has well-formed lines -/

theorem escChar_no_nl (c : Char) : '\n' ∉ escChar c := by
  rw [escChar]
  split_ifs with h1 h2 h3 h4 h5 h6 h7 h8
  · decide
  · decide
  · decide
  · decide
  · decide
  · decide
  · decide
  · intro hm
    have hd1 := (digitChar_facts (c.toNat / 16) (by omega)).1
    have hd2 := (digitChar_facts (c.toNat % 16) (by omega)).1
    simp only [List.mem_cons, List.not_mem_nil, or_false] at hm
    rcases hm with h | h | h | h | h | h
    · exact absurd h (by decide)
    · exact absurd h (by decide)
    · exact absurd h (by decide)
    · exact absurd h (by decide)
    · exact hd1 h.symm
    · exact hd2 h.symm
  · intro hm
    rcases List.mem_singleton.1 hm with rfl
    exact h3 rfl

theorem escape_no_nl (s : List Char) : '\n' ∉ escape s := by
  induction s with
  | nil => simp [escape]
  | cons c s ih =>
    have h1 : escape (c :: s) = escChar c ++ escape s := by
      simp [escape]
    rw [h1]
    intro hm
    rcases List.mem_append.1 hm with h | h
    · exact escChar_no_nl c h
    · exact ih h

theorem natDigits_no_nl (n : Nat) : '\n' ∉ natDigits n := by
  intro h
  have := (natDigits_spec n).2.1 '\n' h
  exact absurd this (by decide)

theorem intText_no_nl (n : Int) : '\n' ∉ intText n := by
  cases n with
  | ofNat m => exact natDigits_no_nl m
  | negSucc m =>
    intro h
    rcases List.mem_cons.1 h with h | h
    · exact absurd h (by decide)
    · exact natDigits_no_nl (m + 1) h

theorem keyText_no_nl (k : List Char) : '\n' ∉ keyText k := by
  rw [keyText]
  intro hm
  rcases List.mem_cons.1 hm with h | h
  · exact absurd h (by decide)
  · rcases List.mem_append.1 h with h | h
    · exact escape_no_nl k h
    · simp only [List.mem_cons, List.not_mem_nil, or_false] at h
      rcases h with h | h | h <;> exact absurd h (by decide)

theorem okLine_attachLast {ls : List (Nat × List Char)} {h : List Char}
    (hls : ∀ p ∈ ls, okLine p) (hh : '\n' ∉ h) :
    ∀ p ∈ attachLast ls h, okLine p := by
  induction ls with
  | nil => intro p hp; simp [attachLast] at hp
  | cons q ls ih =>
    cases ls with
    | nil =>
      intro p hp
      rw [attachLast] at hp
      rcases List.mem_singleton.1 hp with rfl
      obtain ⟨h1, h2, h3⟩ := hls q (List.mem_cons_self q [])
      obtain ⟨a, as, ha⟩ := List.exists_cons_of_ne_nil h1
      refine ⟨?_, ?_, ?_⟩
      · show q.2 ++ h ≠ []
        rw [ha]
        simp
      · intro c hc
        show c ≠ ' '
        have hc2 : (q.2 ++ h).head? = some c := hc
        rw [ha, List.cons_append, List.head?_cons] at hc2
        obtain rfl := Option.some.inj hc2
        exact h2 a (by rw [ha]; rfl)
      · show '\n' ∉ q.2 ++ h
        intro hm
        rcases List.mem_append.1 hm with hm | hm
        · exact h3 hm
        · exact hh hm
    | cons q2 ls2 =>
      intro p hp
      rw [attachLast] at hp
      rcases List.mem_cons.1 hp with rfl | hp
      · exact hls p (List.mem_cons_self p _)
      · exact ih (fun a ha => hls a (List.mem_cons_of_mem _ ha)) p hp

theorem GoodF_lcat {A B : Frag} (hA : GoodF A) (hB : GoodF B) :
    GoodF (lcat A B) := by
  rcases A with ⟨h, ls⟩
  cases ls with
  | nil =>
    show GoodF (h ++ B.1, B.2)
    refine ⟨?_, hB.2⟩
    intro hm
    rcases List.mem_append.1 hm with hm | hm
    · exact hA.1 hm
    · exact hB.1 hm
  | cons p ls =>
    show GoodF (h, attachLast (p :: ls) B.1 ++ B.2)
    refine ⟨hA.1, ?_⟩
    intro q hq
    rcases List.mem_append.1 hq with hq | hq
    · exact okLine_attachLast hA.2 hB.1 q hq
    · exact hB.2 q hq

theorem HeadOk_lcat {A : Frag} (B : Frag) (hA : HeadOk A) :
    HeadOk (lcat A B) := by
  rcases A with ⟨h, ls⟩
  have h1 : h ≠ [] := hA.1
  have h2 : ∀ c, h.head? = some c → c ≠ ' ' := hA.2
  obtain ⟨a, as, ha⟩ := List.exists_cons_of_ne_nil h1
  cases ls with
  | nil =>
    show HeadOk (h ++ B.1, B.2)
    constructor
    · show h ++ B.1 ≠ []
      rw [ha]
      simp
    · intro c hc
      have hc2 : (h ++ B.1).head? = some c := hc
      rw [ha, List.cons_append, List.head?_cons] at hc2
      obtain rfl := Option.some.inj hc2
      exact h2 a (by rw [ha]; rfl)
  | cons p ls => exact ⟨h1, h2⟩

theorem GoodF_nlAt (k : Nat) {B : Frag} (hB : GoodF B) (hH : HeadOk B) :
    GoodF (nlAt k B) := by
  rw [show nlAt k B = ([], (k, B.1) :: B.2) from rfl]
  refine ⟨by simp, ?_⟩
  intro p hp
  rcases List.mem_cons.1 hp with rfl | hp
  · exact ⟨hH.1, hH.2, hB.1⟩
  · exact hB.2 p hp

theorem HeadOk_cons (c : Char) (cs : List Char) (ls : List (Nat × List Char))
    (hc : c ≠ ' ') : HeadOk (c :: cs, ls) := by
  constructor
  · simp
  · intro d hd
    have hd2 : (c :: cs).head? = some d := hd
    rw [List.head?_cons] at hd2
    obtain rfl := Option.some.inj hd2
    exact hc

theorem nilLines : ∀ p ∈ ([] : List (Nat × List Char)), okLine p :=
  fun p hp => absurd hp (List.not_mem_nil p)

theorem rlines_headOk (lvl : Nat) (y : Json) : HeadOk (rlines lvl y) := by
  obtain ⟨c, cs, h1, h2, _⟩ := rlines_head lvl y
  constructor
  · rw [h1]; simp
  · intro d hd
    rw [h1, List.head?_cons] at hd
    obtain rfl := Option.some.inj hd
    intro hsp
    rw [hsp] at h2
    exact absurd h2 (by decide)

theorem memberHeadOk (lvl : Nat) (kv : List Char × Json) :
    HeadOk (rlinesMember lvl kv) := by
  rw [rlinesMember, keyText]
  exact HeadOk_lcat _ (HeadOk_cons '"' _ [] (by decide))

theorem memberGoodF (lvl : Nat) (kv : List Char × Json)
    (h : GoodF (rlines lvl kv.2)) : GoodF (rlinesMember lvl kv) := by
  rw [rlinesMember]
  exact GoodF_lcat ⟨keyText_no_nl kv.1, nilLines⟩ h

theorem rlines_goodF : ∀ (y : Json) (lvl : Nat), GoodF (rlines lvl y) := by
  have items : ∀ (zs : List Json),
      (∀ z ∈ zs, ∀ lvl2, GoodF (rlines lvl2 z)) →
      ∀ lvl2, GoodF (rlinesItems lvl2 zs) := by
    intro zs
    induction zs with
    | nil =>
      intro _ lvl2
      rw [show rlinesItems lvl2 [] = (([] : List Char), []) from rfl]
      exact ⟨by simp, nilLines⟩
    | cons z zs ih =>
      intro hm lvl2
      rw [show rlinesItems lvl2 (z :: zs)
        = lcat (lcat ([','], []) (nlAt lvl2 (rlines lvl2 z)))
          (rlinesItems lvl2 zs) from rfl]
      exact GoodF_lcat
        (GoodF_lcat ⟨by decide, nilLines⟩
          (GoodF_nlAt _ (hm z (List.mem_cons_self z zs) lvl2)
            (rlines_headOk lvl2 z)))
        (ih (fun a ha lvl3 => hm a (List.mem_cons_of_mem _ ha) lvl3) lvl2)
  intro y
  induction y using Json.recMem with
  | h1 =>
    intro lvl
    rw [show rlines lvl Json.null = (('n' :: 'u' :: 'l' :: 'l' :: []), [])
      from rfl]
    exact ⟨by decide, nilLines⟩
  | h2 b =>
    intro lvl
    cases b with
    | true =>
      rw [show rlines lvl (Json.bool true)
        = (('t' :: 'r' :: 'u' :: 'e' :: []), []) from rfl]
      exact ⟨by decide, nilLines⟩
    | false =>
      rw [show rlines lvl (Json.bool false)
        = (('f' :: 'a' :: 'l' :: 's' :: 'e' :: []), []) from rfl]
      exact ⟨by decide, nilLines⟩
  | h3 n =>
    intro lvl
    rw [show rlines lvl (Json.num n) = (intText n, []) from rfl]
    exact ⟨intText_no_nl n, nilLines⟩
  | h4 s =>
    intro lvl
    rw [show rlines lvl (Json.str s) = ('"' :: escape s ++ ['"'], []) from rfl]
    refine ⟨?_, nilLines⟩
    intro hm
    rcases List.mem_cons.1 hm with h | h
    · exact absurd h (by decide)
    · rcases List.mem_append.1 h with h | h
      · exact escape_no_nl s h
      · rcases List.mem_singleton.1 h with h
        exact absurd h (by decide)
  | h5 xs hIH =>
    intro lvl
    cases xs with
    | nil =>
      rw [show rlines lvl (Json.arr []) = (['[', ']'], []) from rfl]
      exact ⟨by decide, nilLines⟩
    | cons x xs =>
      rw [show rlines lvl (Json.arr (x :: xs))
        = lcat (lcat (lcat (['['], []) (nlAt (lvl + 1) (rlines (lvl + 1) x)))
            (rlinesItems (lvl + 1) xs)) (nlAt lvl ([']'], [])) from rfl]
      exact GoodF_lcat (GoodF_lcat (GoodF_lcat ⟨by decide, nilLines⟩
        (GoodF_nlAt _ (hIH x (List.mem_cons_self x xs) (lvl + 1))
          (rlines_headOk (lvl + 1) x)))
        (items xs (fun z hz lvl2 => hIH z (List.mem_cons_of_mem _ hz) lvl2)
          (lvl + 1)))
        (GoodF_nlAt _ ⟨by decide, nilLines⟩ (HeadOk_cons ']' [] [] (by decide)))
  | h6 fs hIH =>
    intro lvl
    have mfields : ∀ (gs : List (List Char × Json)),
        (∀ kv ∈ gs, ∀ lvl2, GoodF (rlines lvl2 kv.2)) →
        ∀ lvl2, GoodF (rlinesFields lvl2 gs) := by
      intro gs
      induction gs with
      | nil =>
        intro _ lvl2
        rw [show rlinesFields lvl2 [] = (([] : List Char), []) from rfl]
        exact ⟨by simp, nilLines⟩
      | cons kv gs ih =>
        intro hm lvl2
        rw [show rlinesFields lvl2 (kv :: gs)
          = lcat (lcat ([','], []) (nlAt lvl2 (rlinesMember lvl2 kv)))
            (rlinesFields lvl2 gs) from rfl]
        exact GoodF_lcat
          (GoodF_lcat ⟨by decide, nilLines⟩
            (GoodF_nlAt _
              (memberGoodF lvl2 kv (hm kv (List.mem_cons_self kv gs) lvl2))
              (memberHeadOk lvl2 kv)))
          (ih (fun a ha lvl3 => hm a (List.mem_cons_of_mem _ ha) lvl3) lvl2)
    cases fs with
    | nil =>
      rw [show rlines lvl (Json.obj [])
        = ([Char.ofNat 123, Char.ofNat 125], []) from rfl]
      exact ⟨by decide, nilLines⟩
    | cons kv fs =>
      rw [show rlines lvl (Json.obj (kv :: fs))
        = lcat (lcat (lcat (([Char.ofNat 123], []))
            (nlAt (lvl + 1) (rlinesMember (lvl + 1) kv)))
            (rlinesFields (lvl + 1) fs))
          (nlAt lvl (([Char.ofNat 125], []))) from rfl]
      exact GoodF_lcat (GoodF_lcat (GoodF_lcat ⟨by decide, nilLines⟩
        (GoodF_nlAt _
          (memberGoodF (lvl + 1) kv
            (hIH kv (List.mem_cons_self kv fs) (lvl + 1)))
          (memberHeadOk (lvl + 1) kv)))
        (mfields fs (fun z hz lvl2 => hIH z (List.mem_cons_of_mem _ hz) lvl2)
          (lvl + 1)))
        (GoodF_nlAt _ ⟨by decide, nilLines⟩
          (HeadOk_cons (Char.ofNat 125) [] [] (by decide)))

/-! ### The tab passes on a rendered fragment -/

theorem intercalate_nl_cons (a : List Char) (bs : List (List Char)) :
    List.intercalate ['\n'] (a :: bs)
      = a ++ (bs.map (fun b => '\n' :: b)).flatten := by
  induction bs generalizing a with
  | nil => simp [List.intercalate]
  | cons b bs ih =>
    rw [List.intercalate, List.intersperse_cons_cons, List.flatten_cons,
      List.flatten_cons]
    have hb := ih b
    rw [List.intercalate] at hb
    rw [hb]
    simp

theorem textOf_eq_intercalate (ind : Nat → List Char) (F : Frag) :
    textOf ind F
      = List.intercalate ['\n'] (F.1 :: F.2.map (fun p => ind p.1 ++ p.2)) := by
  rw [intercalate_nl_cons, textOf, List.map_map]
  rfl

theorem spaces_succ (n : Nat) : spaces (n + 1) = ' ' :: spaces n := rfl

theorem tabs_succ (n : Nat) : tabs (n + 1) = '\t' :: tabs n := rfl

theorem isPrefixOf_spaces_le {i k : Nat} (h : i ≤ k) (t : List Char) :
    (spaces i).isPrefixOf (spaces k ++ t) = true := by
  induction i generalizing k with
  | zero => simp [spaces]
  | succ i ih =>
    obtain ⟨m, rfl⟩ : ∃ m, k = m + 1 := ⟨k - 1, by omega⟩
    rw [spaces_succ, spaces_succ, List.cons_append]
    show (' ' == ' ' && (spaces i).isPrefixOf (spaces m ++ t)) = true
    rw [ih (by omega)]
    rfl

theorem isPrefixOf_spaces_gt {i k : Nat} (h : k < i) {c : Char} (hc : c ≠ ' ')
    (cs : List Char) :
    (spaces i).isPrefixOf (spaces k ++ c :: cs) = false := by
  induction k generalizing i with
  | zero =>
    obtain ⟨m, rfl⟩ : ∃ m, i = m + 1 := ⟨i - 1, by omega⟩
    show ((' ' == c) && (spaces m).isPrefixOf cs) = false
    have hb : (' ' == c) = false := by
      refine beq_eq_false_iff_ne.2 ?_
      intro e
      exact hc e.symm
    rw [hb]
    rfl
  | succ k ih =>
    obtain ⟨m, rfl⟩ : ∃ m, i = m + 1 := ⟨i - 1, by omega⟩
    rw [spaces_succ, spaces_succ, List.cons_append]
    show (' ' == ' ' && (spaces m).isPrefixOf (spaces k ++ c :: cs)) = false
    rw [ih (by omega)]
    simp

theorem tabStart_spaces_le {i k : Nat} (h : i ≤ k) (t : List Char) :
    tabStart i (spaces (4 * k) ++ t)
      = tabs i ++ (spaces (4 * k - 4 * i) ++ t) := by
  rw [tabStart, if_pos (isPrefixOf_spaces_le (by omega) t)]
  congr 1
  rw [List.drop_append_of_le_length (by simp [spaces]; omega)]
  congr 1
  simp [spaces]

theorem tabStart_spaces_gt {i k : Nat} (h : k < i) {c : Char} (hc : c ≠ ' ')
    (cs : List Char) :
    tabStart i (spaces (4 * k) ++ c :: cs) = spaces (4 * k) ++ c :: cs := by
  rw [tabStart, if_neg]
  rw [isPrefixOf_spaces_gt (by omega) hc cs]
  simp

theorem tabStart_noop {i : Nat} (hi : 1 ≤ i) {c : Char} (hc : c ≠ ' ')
    (cs : List Char) : tabStart i (c :: cs) = c :: cs := by
  have h := tabStart_spaces_gt (show 0 < i by omega) hc cs
  simpa [spaces] using h

theorem tabStart_tabs {i j : Nat} (hi : 1 ≤ i) (hj : 1 ≤ j) (t : List Char) :
    tabStart i (tabs j ++ t) = tabs j ++ t := by
  obtain ⟨m, rfl⟩ : ∃ m, j = m + 1 := ⟨j - 1, by omega⟩
  rw [tabs_succ, List.cons_append]
  exact tabStart_noop hi (by decide) _

theorem tabStart_chain (k : Nat) {c : Char} (hc : c ≠ ' ') (cs : List Char) :
    tabStart 1 (tabStart 2 (tabStart 3 (tabStart 4 (tabStart 5 (tabStart 6
      (tabStart 7 (tabStart 8 (spaces (4 * k) ++ c :: cs))))))))
      = tabInd k ++ c :: cs := by
  rcases Nat.lt_or_ge k 8 with hk | hk
  · interval_cases k
    · rw [tabStart_spaces_gt (by omega) hc cs, tabStart_spaces_gt (by omega) hc cs,
        tabStart_spaces_gt (by omega) hc cs, tabStart_spaces_gt (by omega) hc cs,
        tabStart_spaces_gt (by omega) hc cs, tabStart_spaces_gt (by omega) hc cs,
        tabStart_spaces_gt (by omega) hc cs, tabStart_spaces_gt (by omega) hc cs]
      simp [tabInd, spaces, tabs]
    · rw [tabStart_spaces_gt (by omega) hc cs, tabStart_spaces_gt (by omega) hc cs,
        tabStart_spaces_gt (by omega) hc cs, tabStart_spaces_gt (by omega) hc cs,
        tabStart_spaces_gt (by omega) hc cs, tabStart_spaces_gt (by omega) hc cs,
        tabStart_spaces_gt (by omega) hc cs, tabStart_spaces_le (by omega)]
      simp [tabInd, spaces, tabs]
    · rw [tabStart_spaces_gt (by omega) hc cs, tabStart_spaces_gt (by omega) hc cs,
        tabStart_spaces_gt (by omega) hc cs, tabStart_spaces_gt (by omega) hc cs,
        tabStart_spaces_gt (by omega) hc cs, tabStart_spaces_gt (by omega) hc cs,
        tabStart_spaces_le (by omega), tabStart_tabs (by omega) (by omega)]
      simp [tabInd, spaces, tabs]
    · rw [tabStart_spaces_gt (by omega) hc cs, tabStart_spaces_gt (by omega) hc cs,
        tabStart_spaces_gt (by omega) hc cs, tabStart_spaces_gt (by omega) hc cs,
        tabStart_spaces_gt (by omega) hc cs, tabStart_spaces_le (by omega),
        tabStart_tabs (by omega) (by omega), tabStart_tabs (by omega) (by omega)]
      simp [tabInd, spaces, tabs]
    · rw [tabStart_spaces_gt (by omega) hc cs, tabStart_spaces_gt (by omega) hc cs,
        tabStart_spaces_gt (by omega) hc cs, tabStart_spaces_gt (by omega) hc cs,
        tabStart_spaces_le (by omega), tabStart_tabs (by omega) (by omega),
        tabStart_tabs (by omega) (by omega), tabStart_tabs (by omega) (by omega)]
      simp [tabInd, spaces, tabs]
    · rw [tabStart_spaces_gt (by omega) hc cs, tabStart_spaces_gt (by omega) hc cs,
        tabStart_spaces_gt (by omega) hc cs, tabStart_spaces_le (by omega),
        tabStart_tabs (by omega) (by omega), tabStart_tabs (by omega) (by omega),
        tabStart_tabs (by omega) (by omega), tabStart_tabs (by omega) (by omega)]
      simp [tabInd, spaces, tabs]
    · rw [tabStart_spaces_gt (by omega) hc cs, tabStart_spaces_gt (by omega) hc cs,
        tabStart_spaces_le (by omega), tabStart_tabs (by omega) (by omega),
        tabStart_tabs (by omega) (by omega), tabStart_tabs (by omega) (by omega),
        tabStart_tabs (by omega) (by omega), tabStart_tabs (by omega) (by omega)]
      simp [tabInd, spaces, tabs]
    · rw [tabStart_spaces_gt (by omega) hc cs, tabStart_spaces_le (by omega),
        tabStart_tabs (by omega) (by omega), tabStart_tabs (by omega) (by omega),
        tabStart_tabs (by omega) (by omega), tabStart_tabs (by omega) (by omega),
        tabStart_tabs (by omega) (by omega), tabStart_tabs (by omega) (by omega)]
      simp [tabInd, spaces, tabs]
  · rw [tabStart_spaces_le (show 8 ≤ k by omega),
      tabStart_tabs (by omega) (by omega), tabStart_tabs (by omega) (by omega),
      tabStart_tabs (by omega) (by omega), tabStart_tabs (by omega) (by omega),
      tabStart_tabs (by omega) (by omega), tabStart_tabs (by omega) (by omega),
      tabStart_tabs (by omega) (by omega)]
    rw [tabInd, Nat.min_eq_right hk]
    simp [List.append_assoc]

theorem tabStart_no_nl (i : Nat) {l : List Char} (h : '\n' ∉ l) :
    '\n' ∉ tabStart i l := by
  rw [tabStart]
  split_ifs with hp
  · intro hm
    rcases List.mem_append.1 hm with hm | hm
    · rw [tabs] at hm
      exact absurd (List.eq_of_mem_replicate hm) (by decide)
    · exact h (List.mem_of_mem_drop hm)
  · exact h

theorem map_no_nl {f : List Char → List Char}
    (hf : ∀ l, '\n' ∉ l → '\n' ∉ f l) (ls : List (List Char))
    (h : ∀ l ∈ ls, '\n' ∉ l) : ∀ l ∈ ls.map f, '\n' ∉ l := by
  intro l hl
  obtain ⟨l0, hl0, rfl⟩ := List.mem_map.1 hl
  exact hf l0 (h l0 hl0)

theorem tabPass_intercalate (i : Nat) (ls : List (List Char)) (hls : ls ≠ [])
    (hnl : ∀ l ∈ ls, '\n' ∉ l) :
    tabPass i (List.intercalate ['\n'] ls)
      = List.intercalate ['\n'] (ls.map (tabStart i)) := by
  rw [tabPass, List.splitOn_intercalate ls '\n' hnl hls]

theorem tabify_intercalate (ls : List (List Char)) (hls : ls ≠ [])
    (hnl : ∀ l ∈ ls, '\n' ∉ l) :
    tabify (List.intercalate ['\n'] ls)
      = List.intercalate ['\n'] (ls.map (fun l =>
          tabStart 1 (tabStart 2 (tabStart 3 (tabStart 4 (tabStart 5
            (tabStart 6 (tabStart 7 (tabStart 8 l))))))))) := by
  have m8 := map_no_nl (fun l h => tabStart_no_nl 8 h) ls hnl
  have m7 := map_no_nl (fun l h => tabStart_no_nl 7 h) _ m8
  have m6 := map_no_nl (fun l h => tabStart_no_nl 6 h) _ m7
  have m5 := map_no_nl (fun l h => tabStart_no_nl 5 h) _ m6
  have m4 := map_no_nl (fun l h => tabStart_no_nl 4 h) _ m5
  have m3 := map_no_nl (fun l h => tabStart_no_nl 3 h) _ m4
  have m2 := map_no_nl (fun l h => tabStart_no_nl 2 h) _ m3
  rw [show tabify (List.intercalate ['\n'] ls)
    = tabPass 1 (tabPass 2 (tabPass 3 (tabPass 4 (tabPass 5 (tabPass 6
        (tabPass 7 (tabPass 8 (List.intercalate ['\n'] ls))))))))
    from by simp only [tabify, List.foldl]]
  rw [tabPass_intercalate 8 ls hls hnl,
    tabPass_intercalate 7 _ (by simpa using hls) m8,
    tabPass_intercalate 6 _ (by simpa using hls) m7,
    tabPass_intercalate 5 _ (by simpa using hls) m6,
    tabPass_intercalate 4 _ (by simpa using hls) m5,
    tabPass_intercalate 3 _ (by simpa using hls) m4,
    tabPass_intercalate 2 _ (by simpa using hls) m3,
    tabPass_intercalate 1 _ (by simpa using hls) m2]
  simp only [List.map_map]
  rfl

set_option maxHeartbeats 2000000 in
theorem tabify_textOf (F : Frag) (hG : GoodF F) (hH : HeadOk F) :
    tabify (textOf spInd F) = textOf tabInd F := by
  have hnl : ∀ l ∈ F.1 :: F.2.map (fun p => spInd p.1 ++ p.2), '\n' ∉ l := by
    intro l hl
    rcases List.mem_cons.1 hl with rfl | hl
    · exact hG.1
    · obtain ⟨p, hp, rfl⟩ := List.mem_map.1 hl
      intro hm
      rcases List.mem_append.1 hm with hm | hm
      · rw [spInd] at hm
        exact absurd (List.eq_of_mem_replicate hm) (by decide)
      · exact (hG.2 p hp).2.2 hm
  rw [textOf_eq_intercalate spInd F, textOf_eq_intercalate tabInd F]
  rw [tabify_intercalate _ (by simp) hnl]
  rw [List.map_cons]
  obtain ⟨a, as, ha⟩ := List.exists_cons_of_ne_nil hH.1
  have hca : a ≠ ' ' := hH.2 a (by rw [ha]; rfl)
  have hhead : tabStart 1 (tabStart 2 (tabStart 3 (tabStart 4 (tabStart 5
      (tabStart 6 (tabStart 7 (tabStart 8 F.1))))))) = F.1 := by
    rw [ha]
    rw [tabStart_noop (by omega) hca, tabStart_noop (by omega) hca,
      tabStart_noop (by omega) hca, tabStart_noop (by omega) hca,
      tabStart_noop (by omega) hca, tabStart_noop (by omega) hca,
      tabStart_noop (by omega) hca, tabStart_noop (by omega) hca]
  have htail : (F.2.map (fun p => spInd p.1 ++ p.2)).map (fun l =>
      tabStart 1 (tabStart 2 (tabStart 3 (tabStart 4 (tabStart 5
        (tabStart 6 (tabStart 7 (tabStart 8 l))))))))
      = F.2.map (fun p => tabInd p.1 ++ p.2) := by
    rw [List.map_map]
    refine List.map_congr_left ?_
    intro p hp
    obtain ⟨h1, h2, _⟩ := hG.2 p hp
    obtain ⟨b, bs, hb⟩ := List.exists_cons_of_ne_nil h1
    have hcb : b ≠ ' ' := h2 b (by rw [hb]; rfl)
    show tabStart 1 (tabStart 2 (tabStart 3 (tabStart 4 (tabStart 5 (tabStart 6
      (tabStart 7 (tabStart 8 (spInd p.1 ++ p.2)))))))) = tabInd p.1 ++ p.2
    rw [hb, show spInd p.1 = spaces (4 * p.1) from rfl]
    exact tabStart_chain p.1 hcb bs
  rw [hhead, htail]

/-! ### Idempotence of the recursive key sort -/

theorem lexLt_asymm : ∀ (a b : List Char), lexLt a b = true → lexLt b a = false := by
  intro a
  induction a with
  | nil =>
    intro b hb
    cases b with
    | nil => simp [lexLt] at hb
    | cons y ys => rfl
  | cons x xs ih =>
    intro b hb
    cases b with
    | nil => simp [lexLt] at hb
    | cons y ys =>
      rw [lexLt] at hb
      rw [lexLt]
      by_cases h1 : x < y
      · rw [if_neg (lt_asymm h1), if_pos h1]
      · by_cases h2 : y < x
        · rw [if_neg h1, if_pos h2] at hb
          cases hb
        · rw [if_neg h1, if_neg h2] at hb
          rw [if_neg h2, if_neg h1]
          exact ih ys hb

theorem lexLt_trans : ∀ (a b c : List Char),
    lexLt a b = true → lexLt b c = true → lexLt a c = true := by
  intro a
  induction a with
  | nil =>
    intro b c h1 h2
    cases b with
    | nil => simp [lexLt] at h1
    | cons y ys =>
      cases c with
      | nil => simp [lexLt] at h2
      | cons z zs => rfl
  | cons x xs ih =>
    intro b c h1 h2
    cases b with
    | nil => simp [lexLt] at h1
    | cons y ys =>
      cases c with
      | nil => simp [lexLt] at h2
      | cons z zs =>
        rw [lexLt] at h1 h2 ⊢
        by_cases hxy : x < y
        · by_cases hyz : y < z
          · rw [if_pos (lt_trans hxy hyz)]
          · by_cases hzy : z < y
            · rw [if_neg hyz, if_pos hzy] at h2
              cases h2
            · have he : y = z := le_antisymm (not_lt.1 hzy) (not_lt.1 hyz)
              subst he
              rw [if_pos hxy]
        · by_cases hyx : y < x
          · rw [if_neg hxy, if_pos hyx] at h1
            cases h1
          · have he : x = y := le_antisymm (not_lt.1 hyx) (not_lt.1 hxy)
            subst he
            rw [if_neg hxy, if_neg hyx] at h1
            by_cases hxz : x < z
            · rw [if_pos hxz]
            · by_cases hzx : z < x
              · rw [if_neg hxz, if_pos hzx] at h2
                cases h2
              · have he2 : x = z := le_antisymm (not_lt.1 hzx) (not_lt.1 hxz)
                subst he2
                rw [if_neg hxz, if_neg hzx] at h2 ⊢
                exact ih ys zs h1 h2

theorem lexLt_connex : ∀ (a b : List Char),
    lexLt a b = false → lexLt b a = true ∨ a = b := by
  intro a
  induction a with
  | nil =>
    intro b hb
    cases b with
    | nil => exact Or.inr rfl
    | cons y ys => simp [lexLt] at hb
  | cons x xs ih =>
    intro b hb
    cases b with
    | nil => exact Or.inl rfl
    | cons y ys =>
      rw [lexLt] at hb
      by_cases hxy : x < y
      · rw [if_pos hxy] at hb
        cases hb
      · by_cases hyx : y < x
        · left
          rw [lexLt, if_pos hyx]
        · have he : x = y := le_antisymm (not_lt.1 hyx) (not_lt.1 hxy)
          subst he
          rw [if_neg hxy, if_neg hyx] at hb
          rcases ih ys hb with h | h
          · left
            rw [lexLt, if_neg hxy, if_neg hyx]
            exact h
          · right
            rw [h]

theorem keyLE_total (p q : List Char × Json) : keyLE p q ∨ keyLE q p := by
  by_cases h : lexLt q.1 p.1 = false
  · exact Or.inl h
  · right
    have ht : lexLt q.1 p.1 = true := by
      cases hb : lexLt q.1 p.1 with
      | false => exact absurd hb h
      | true => rfl
    exact lexLt_asymm _ _ ht

theorem keyLE_trans {p q r : List Char × Json}
    (h1 : keyLE p q) (h2 : keyLE q r) : keyLE p r := by
  rcases lexLt_connex _ _ h1 with hqp | hqp
  · rcases lexLt_connex _ _ h2 with hrq | hrq
    · exact lexLt_asymm _ _ (lexLt_trans _ _ _ hqp hrq)
    · show lexLt r.1 p.1 = false
      rw [hrq]
      exact h1
  · show lexLt r.1 p.1 = false
    rw [← hqp]
    exact h2

theorem sortNormList_eq_map : ∀ (xs : List Json),
    sortNormList xs = xs.map sortNorm := by
  intro xs
  induction xs with
  | nil => rfl
  | cons x xs ih => simp [sortNormList, ih]

theorem sortNormFields_eq_map : ∀ (fs : List (List Char × Json)),
    sortNormFields fs = fs.map (fun kv => (kv.1, sortNorm kv.2)) := by
  intro fs
  induction fs with
  | nil => rfl
  | cons kv fs ih => simp [sortNormFields, ih]

theorem sortNorm_idem : ∀ (x : Json), sortNorm (sortNorm x) = sortNorm x := by
  intro x
  induction x using Json.recMem with
  | h1 => rfl
  | h2 b => rfl
  | h3 n => rfl
  | h4 s => rfl
  | h5 xs hIH =>
    show Json.arr (sortNormList (sortNormList xs)) = Json.arr (sortNormList xs)
    rw [sortNormList_eq_map, sortNormList_eq_map, List.map_map]
    exact congrArg Json.arr (List.map_congr_left hIH)
  | h6 fs hIH =>
    haveI instTr : IsTrans (List Char × Json) keyLE :=
      ⟨fun _ _ _ h1 h2 => keyLE_trans h1 h2⟩
    haveI instTo : IsTotal (List Char × Json) keyLE := ⟨keyLE_total⟩
    show Json.obj (List.insertionSort keyLE
        (sortNormFields (List.insertionSort keyLE (sortNormFields fs))))
      = Json.obj (List.insertionSort keyLE (sortNormFields fs))
    have hpt : ∀ kv ∈ List.insertionSort keyLE (sortNormFields fs),
        sortNorm kv.2 = kv.2 := by
      intro kv hkv
      have hkv2 : kv ∈ sortNormFields fs :=
        ((List.perm_insertionSort keyLE _).mem_iff).1 hkv
      rw [sortNormFields_eq_map] at hkv2
      obtain ⟨kv0, hkv0, rfl⟩ := List.mem_map.1 hkv2
      exact hIH kv0 hkv0
    have hL : sortNormFields (List.insertionSort keyLE (sortNormFields fs))
        = List.insertionSort keyLE (sortNormFields fs) := by
      rw [sortNormFields_eq_map]
      have hid : ∀ kv ∈ List.insertionSort keyLE (sortNormFields fs),
          (fun kv => (kv.1, sortNorm kv.2)) kv = kv := by
        intro kv hkv
        show (kv.1, sortNorm kv.2) = kv
        rw [hpt kv hkv]
      rw [List.map_congr_left hid]
      exact List.map_id _
    rw [hL, (List.sorted_insertionSort keyLE _).insertionSort_eq]

theorem dumps_sortNorm (x : Json) : dumps (sortNorm x) = dumps x := by
  rw [dumps, dumps, sortNorm_idem]

theorem format_json_sortNorm (x : Json) :
    format_json (sortNorm x) = format_json x := by
  rw [format_json, format_json, dumps_sortNorm]

/-! ### The round trip through `format_json` and `json_loads` -/

theorem wsInd_tabInd : WsInd tabInd := by
  intro k c hc
  rw [tabInd] at hc
  rcases List.mem_append.1 hc with h | h
  · rw [tabs] at h
    rw [List.eq_of_mem_replicate h]
    rfl
  · rw [spaces] at h
    rw [List.eq_of_mem_replicate h]
    rfl

theorem format_parse (x : Json) (h : CleanJson x) :
    json_loads (format_json x) = some (sortNorm x) := by
  have hG := rlines_goodF (sortNorm x) 0
  have hH := rlines_headOk 0 (sortNorm x)
  have hfmt : format_json x = textOf tabInd (rlines 0 (sortNorm x)) ++ ['\n'] := by
    rw [format_json, h, dumps, tabify_textOf _ hG hH]
  rw [hfmt]
  have hfuel : fuelNeed (sortNorm x)
      ≤ (textOf tabInd (rlines 0 (sortNorm x)) ++ ['\n']).length + 1 := by
    have hle := fuelNeed_le_textOf tabInd (sortNorm x) 0
    simp only [List.length_append, List.length_cons, List.length_nil]
    omega
  have hp := parse_render tabInd wsInd_tabInd (sortNorm x) 0 ['\n']
    ((textOf tabInd (rlines 0 (sortNorm x)) ++ ['\n']).length + 1)
    (sepOk_newline []) hfuel
  simp only [json_loads]
  rw [hp]
  rfl

/-! ### Claim theorems -/

/-- C1, counterexample: for a localized file identical to the source
(`c1Records`, one record with two non-empty field values) the comparator
reports `translated = 0` and a non-empty untranslated mapping, while the claim
asserts `translated == total` and an empty untranslated mapping. -/
theorem C1_counterexample :
    compare_translations (.content c1Records) (.content c1Records) .absent
      = some ⟨2, 0, [(some "A1", [("name", "Noise"), ("text", "Draw 1")])], []⟩
    ∧ ¬((0 : Nat) = 2
        ∧ ([(some "A1", [("name", "Noise"), ("text", "Draw 1")])] : TransDict)
            = []) := by
  exact ⟨rfl, by decide⟩

/-- C1 (amended): for a localized file identical to the source (and no ignore
file), `missing` is empty, `untranslated` consists exactly of the non-empty
source field values, and `translated` counts exactly the empty-string source
values; hence `translated == total` with empty `untranslated` holds precisely
when every source value is the empty string. -/
theorem C1_amended_identical_file (l : List Record) :
    compare_translations (.content l) (.content l) .absent
      = some ⟨(load_translatable_dict l).2,
              selfTranslated ((load_translatable_dict l).1),
              selfUntranslated ((load_translatable_dict l).1), []⟩
    ∧ ((load_translatable_dict l).2
          = selfTranslated ((load_translatable_dict l).1)
        ↔ selfUntranslated ((load_translatable_dict l).1) = [])
    ∧ (selfUntranslated ((load_translatable_dict l).1) = []
        ↔ ∀ kv ∈ (load_translatable_dict l).1, ∀ fv ∈ kv.2, fv.2 = "") := by
  refine ⟨?_, ?_, selfUntranslated_eq_nil_iff _⟩
  · have hred : compare_translations (.content l) (.content l) .absent
        = some (compare_core (load_translatable_dict l).1
            (load_translatable_dict l).1 [] (load_translatable_dict l).2) := rfl
    rw [hred]
    have hself := compare_fold_self (load_translatable_dict l).1
      (fun kv hkv => load_fields_nodup l hkv) 0 []
    have hcc : compare_core (load_translatable_dict l).1
        (load_translatable_dict l).1 [] (load_translatable_dict l).2
        = ⟨(load_translatable_dict l).2,
           selfTranslated ((load_translatable_dict l).1),
           selfUntranslated ((load_translatable_dict l).1), []⟩ := by
      simp only [compare_core, hself]
      simp
    rw [hcc]
  · have hd := pairCount_self_decomp (load_translatable_dict l).1
    have ht := load_total l
    have hzero := pairCount_zero_iff
      (d := selfUntranslated ((load_translatable_dict l).1))
      (fun kv hkv => selfUntranslated_entry_pos hkv)
    constructor
    · intro he
      apply hzero.1
      omega
    · intro he
      rw [he, show pairCount ([] : TransDict) = 0 from rfl] at hd
      omega

/-- C2: for every code present in both mappings and every `(field, value)`
pair of the source entry, the comparator records the field as untranslated
(with the source value) exactly when the field is absent from the localized
entry, or present with a localized value that no ignore rule matches, equal
to the source value, with the source value non-empty; in all other cases —
including a localized empty string different from the source value — the
field is classified translated, and translated and untranslated
classifications together exhaust the source fields. -/
theorem C2_field_classification (en i18n ig : TransDict) (total : Nat)
    (c : Code) (enFs iFs : Fields) (f v : String)
    (hnk : ((en.map Prod.fst)).Nodup)
    (hnf : ((enFs.map Prod.fst)).Nodup)
    (hen : en.lookup c = some enFs) (hi : i18n.lookup c = some iFs)
    (hf : enFs.lookup f = some v) :
    (((compare_core en i18n ig total).untranslated.lookup c).bind
        (fun u => u.lookup f))
      = (match iFs.lookup f with
         | none => some v
         | some lv =>
           if should_ignore ig c f lv then none
           else if v = lv ∧ v ≠ "" then some v else none)
    ∧ (classify_fields ig c enFs iFs).1
        + (classify_fields ig c enFs iFs).2.length = enFs.length := by
  have hbridge : (if untranslated_value ig c iFs (f, v) then some v else none)
      = (match iFs.lookup f with
         | none => some v
         | some lv =>
           if should_ignore ig c f lv then none
           else if v = lv ∧ v ≠ "" then some v else none) := by
    simp only [untranslated_value]
    rcases hlf : iFs.lookup f with _ | lv
    · simp
    · by_cases hig2 : should_ignore ig c f lv = true
      · simp [hig2]
      · by_cases h1 : v = lv
        · by_cases h2 : v = ""
          · simp [hig2, h1, h2]
          · simp [hig2, h1, h2]
        · simp [hig2, h1]
  constructor
  · have hcc : (compare_core en i18n ig total).untranslated
        = (i18n.foldl (compare_step ig) (0, [], en)).2.1 := rfl
    rw [hcc, compare_fold_lookup ig c enFs iFs i18n 0 [] en hnk hen hi rfl]
    by_cases hlen : (enFs.filter (untranslated_value ig c iFs)).length > 0
    · rw [if_pos hlen]
      simp only [Option.some_bind]
      rw [lookup_filter_nodup _ _ hnf, hf]
      exact hbridge
    · rw [if_neg hlen]
      have h0 : enFs.filter (untranslated_value ig c iFs) = [] := by
        have : (enFs.filter (untranslated_value ig c iFs)).length = 0 := by
          omega
        exact List.length_eq_zero.1 this
      have hfalse : ¬ (untranslated_value ig c iFs (f, v) = true) :=
        List.filter_eq_nil_iff.1 h0 (f, v) (lookup_mem hf)
      rw [← hbridge, if_neg hfalse]
      rfl
  · rw [classify_fields_eq]
    simpa [Nat.add_comm] using length_filter_add_length_filter_not enFs
      (fun fv => untranslated_value ig c iFs fv)

/-- C2, witness at a concrete input: both files carry code `A` with field
`text`; the localized value equals the non-empty source value and no ignore
rule applies, so the field is recorded untranslated with the source value. -/
theorem C2_field_classification_witness :
    ((wDict.map Prod.fst).Nodup)
    ∧ ((([("text", "T")] : Fields).map Prod.fst).Nodup)
    ∧ wDict.lookup (some "A") = some [("text", "T")]
    ∧ (([("text", "T")] : Fields).lookup ("text")) = some "T"
    ∧ (((compare_core wDict wDict [] 1).untranslated.lookup (some "A")).bind
        (fun u => u.lookup ("text")))
      = (match (([("text", "T")] : Fields).lookup ("text")) with
         | none => some "T"
         | some lv =>
           if should_ignore [] (some "A") ("text") lv then none
           else if "T" = lv ∧ "T" ≠ "" then some "T" else none)
    ∧ (classify_fields [] (some "A") [("text", "T")] [("text", "T")]).1
        + (classify_fields [] (some "A") [("text", "T")] [("text", "T")]).2.length
      = ([("text", "T")] : Fields).length :=
  ⟨by decide, by decide, rfl, rfl,
   (C2_field_classification wDict wDict [] 1 (some "A") [("text", "T")]
      [("text", "T")] ("text") "T" (by decide) (by decide) rfl rfl rfl).1,
   (C2_field_classification wDict wDict [] 1 (some "A") [("text", "T")]
      [("text", "T")] ("text") "T" (by decide) (by decide) rfl rfl rfl).2⟩

/-- C6: for any source data, an absent localized file makes the comparator
return `missing` equal to the entire source mapping, empty `untranslated` and
`translated = 0`; but a localized file that exists and decodes to nothing
does not yield these stats — the program crashes (modelled as `none`),
because `load_json_file` returns `None` which `load_translatable_dict`
then iterates (and, before that, line 54 accesses the non-existent
`ValueError.message` attribute under Python 3). -/
theorem C6_absent_vs_invalid (enL : List Record) :
    compare_translations (.content enL) .absent .absent
      = some ⟨(load_translatable_dict enL).2, 0, [],
              (load_translatable_dict enL).1⟩
    ∧ compare_translations (.content enL) .invalid .absent = none :=
  ⟨rfl, rfl⟩

/-- C7: an ignore entry exactly equal to the localized value forces the
field to be classified translated: it is not recorded untranslated (even
when the localized value equals the non-empty source value), and the
translated/untranslated classifications still exhaust the source fields. -/
theorem C7_ignore_override (en i18n ig : TransDict) (total : Nat)
    (c : Code) (enFs iFs : Fields) (f v lv : String)
    (hnk : ((en.map Prod.fst)).Nodup)
    (hnf : ((enFs.map Prod.fst)).Nodup)
    (hen : en.lookup c = some enFs) (hi : i18n.lookup c = some iFs)
    (hf : enFs.lookup f = some v) (hlf : iFs.lookup f = some lv)
    (hig : (ig.lookup c).bind (fun fs => fs.lookup f) = some lv) :
    (((compare_core en i18n ig total).untranslated.lookup c).bind
        (fun u => u.lookup f)) = none
    ∧ (classify_fields ig c enFs iFs).1
        + (classify_fields ig c enFs iFs).2.length = enFs.length := by
  obtain ⟨fsIG, hig1, hig2⟩ :
      ∃ fs, ig.lookup c = some fs ∧ fs.lookup f = some lv := by
    rcases h : ig.lookup c with _ | fs
    · rw [h] at hig; cases hig
    · rw [h] at hig; exact ⟨fs, rfl, by simpa using hig⟩
  have hsi : should_ignore ig c f lv = true := by
    simp [should_ignore, hig1, hig2]
  have huv : untranslated_value ig c iFs (f, v) = false := by
    simp [untranslated_value, hlf, hsi]
  constructor
  · have hcc : (compare_core en i18n ig total).untranslated
        = (i18n.foldl (compare_step ig) (0, [], en)).2.1 := rfl
    rw [hcc, compare_fold_lookup ig c enFs iFs i18n 0 [] en hnk hen hi rfl]
    by_cases hlen : (enFs.filter (untranslated_value ig c iFs)).length > 0
    · rw [if_pos hlen]
      simp only [Option.some_bind]
      rw [lookup_filter_nodup _ _ hnf, hf]
      simp [huv]
    · rw [if_neg hlen]
      rfl
  · rw [classify_fields_eq]
    simpa [Nat.add_comm] using length_filter_add_length_filter_not enFs
      (fun fv => untranslated_value ig c iFs fv)

/-- C7, witness at the concrete input of the spec: source and localized both
carry `text = "Ability text"` and the ignore rule lists exactly that value;
the field is not reported untranslated. -/
theorem C7_ignore_override_witness :
    ((w7Dict.map Prod.fst).Nodup)
    ∧ ((([("text", "Ability text")] : Fields).map Prod.fst).Nodup)
    ∧ w7Dict.lookup (some "A") = some [("text", "Ability text")]
    ∧ (([("text", "Ability text")] : Fields).lookup ("text"))
        = some "Ability text"
    ∧ ((wIgnore.lookup (some "A")).bind (fun fs => fs.lookup ("text")))
        = some "Ability text"
    ∧ (((compare_core w7Dict w7Dict wIgnore 1).untranslated.lookup
        (some "A")).bind (fun u => u.lookup ("text"))) = none
    ∧ (classify_fields wIgnore (some "A") [("text", "Ability text")]
          [("text", "Ability text")]).1
        + (classify_fields wIgnore (some "A") [("text", "Ability text")]
            [("text", "Ability text")]).2.length
      = ([("text", "Ability text")] : Fields).length :=
  ⟨by decide, by decide, rfl, rfl, rfl,
   (C7_ignore_override w7Dict w7Dict wIgnore 1 (some "A")
      [("text", "Ability text")] [("text", "Ability text")] ("text")
      "Ability text" "Ability text" (by decide) (by decide) rfl rfl rfl rfl
      rfl).1,
   (C7_ignore_override w7Dict w7Dict wIgnore 1 (some "A")
      [("text", "Ability text")] [("text", "Ability text")] ("text")
      "Ability text" "Ability text" (by decide) (by decide) rfl rfl rfl rfl
      rfl).2⟩

/-- C9: the stats returned by the comparison core satisfy the conservation
equation — the source total equals the translated count plus the number of
`(code, field)` pairs recorded untranslated plus the number of pairs left
missing; localized codes absent from the source are skipped and contribute
to none of the three. -/
theorem C9_conservation (enL i18nL igL : List Record) :
    (compare_core (load_translatable_dict enL).1
        (load_translatable_dict i18nL).1 (load_translatable_dict igL).1
        (load_translatable_dict enL).2).total
      = (compare_core (load_translatable_dict enL).1
          (load_translatable_dict i18nL).1 (load_translatable_dict igL).1
          (load_translatable_dict enL).2).translated
        + pairCount ((compare_core (load_translatable_dict enL).1
            (load_translatable_dict i18nL).1 (load_translatable_dict igL).1
            (load_translatable_dict enL).2).untranslated)
        + pairCount ((compare_core (load_translatable_dict enL).1
            (load_translatable_dict i18nL).1 (load_translatable_dict igL).1
            (load_translatable_dict enL).2).missing) := by
  have h := compare_fold_conservation (load_translatable_dict igL).1
    (load_translatable_dict i18nL).1 0 [] (load_translatable_dict enL).1
  have ht := load_total enL
  have e1 : (compare_core (load_translatable_dict enL).1
      (load_translatable_dict i18nL).1 (load_translatable_dict igL).1
      (load_translatable_dict enL).2).total = (load_translatable_dict enL).2 :=
    rfl
  have e2 : (compare_core (load_translatable_dict enL).1
      (load_translatable_dict i18nL).1 (load_translatable_dict igL).1
      (load_translatable_dict enL).2).translated
      = ((load_translatable_dict i18nL).1.foldl
          (compare_step (load_translatable_dict igL).1)
          (0, [], (load_translatable_dict enL).1)).1 := rfl
  have e3 : (compare_core (load_translatable_dict enL).1
      (load_translatable_dict i18nL).1 (load_translatable_dict igL).1
      (load_translatable_dict enL).2).untranslated
      = ((load_translatable_dict i18nL).1.foldl
          (compare_step (load_translatable_dict igL).1)
          (0, [], (load_translatable_dict enL).1)).2.1 := rfl
  have e4 : (compare_core (load_translatable_dict enL).1
      (load_translatable_dict i18nL).1 (load_translatable_dict igL).1
      (load_translatable_dict enL).2).missing
      = ((load_translatable_dict i18nL).1.foldl
          (compare_step (load_translatable_dict igL).1)
          (0, [], (load_translatable_dict enL).1)).2.2 := rfl
  rw [e1, e2, e3, e4]
  rw [show pairCount ([] : TransDict) = 0 from rfl] at h
  omega

/-- C8, counterexample: in `c8Records` two records share the code `c`; the
first occurrence has zero whitelisted fields, so the second occurrence is not
dropped — its field is the one counted in the mapping and in the total,
contradicting `only the first occurrence's fields are counted ... the second
and later occurrences are dropped`. -/
theorem C8_counterexample :
    check_duplicate_codes c8Records = 1
    ∧ (get_translatable_strings [(codeKey, "c")]).1 = []
    ∧ load_translatable_dict c8Records = ([(some "c", [("name", "x")])], 1) :=
  ⟨rfl, rfl, rfl⟩

/-- C8 (amended): for a source list of two records sharing one code, the
duplicate-code check emits exactly one warning; when the first record has at
least one whitelisted field, only its fields are counted in the mapping and
in the total, the second record is dropped, and the loader emits one further
warning; when the first record has no whitelisted field, the second record is
not dropped — its fields are counted instead and the loader emits no
warning. -/
theorem C8_amended_duplicate_codes (r1 r2 : Record) (c : Code)
    (h1 : r1.lookup codeKey = c) (h2 : r2.lookup codeKey = c) :
    check_duplicate_codes [r1, r2] = 1
    ∧ (0 < (get_translatable_strings r1).1.length →
        load_translatable_dict [r1, r2]
          = ([(c, (get_translatable_strings r1).1)],
             (get_translatable_strings r1).1.length)
        ∧ load_loop_warnings [r1, r2] = 1)
    ∧ ((get_translatable_strings r1).1 = [] →
        load_translatable_dict [r1, r2]
          = ((if 0 < (get_translatable_strings r2).1.length
              then [(c, (get_translatable_strings r2).1)] else []),
             (get_translatable_strings r2).1.length)
        ∧ load_loop_warnings [r1, r2] = 0) := by
  refine ⟨?_, ?_, ?_⟩
  · simp [check_duplicate_codes, h1, h2]
  · intro hlen
    have hs1 : load_step ⟨[], 0, 0⟩ r1
        = ⟨[(c, (get_translatable_strings r1).1)],
           (get_translatable_strings r1).1.length, 0⟩ := by
      simp [load_step, h1, hlen]
    have hs2 : load_step ⟨[(c, (get_translatable_strings r1).1)],
          (get_translatable_strings r1).1.length, 0⟩ r2
        = ⟨[(c, (get_translatable_strings r1).1)],
           (get_translatable_strings r1).1.length, 1⟩ := by
      simp [load_step, h2, lookup_cons]
    have hfold : List.foldl load_step ⟨[], 0, 0⟩ [r1, r2]
        = ⟨[(c, (get_translatable_strings r1).1)],
           (get_translatable_strings r1).1.length, 1⟩ := by
      rw [show List.foldl load_step (⟨[], 0, 0⟩ : LoadAcc) [r1, r2]
          = load_step (load_step ⟨[], 0, 0⟩ r1) r2 from rfl, hs1, hs2]
    exact ⟨by rw [load_translatable_dict, hfold],
           by rw [load_loop_warnings, hfold]⟩
  · intro hempty
    have hs1 : load_step ⟨[], 0, 0⟩ r1 = ⟨[], 0, 0⟩ := by
      simp [load_step, h1, hempty]
    have hs2 : load_step (⟨[], 0, 0⟩ : LoadAcc) r2
        = ⟨(if 0 < (get_translatable_strings r2).1.length
            then [(c, (get_translatable_strings r2).1)] else []),
           (get_translatable_strings r2).1.length, 0⟩ := by
      by_cases hlen2 : 0 < (get_translatable_strings r2).1.length
      · simp [load_step, h2, hlen2]
      · simp [load_step, h2, hlen2]
    have hfold : List.foldl load_step ⟨[], 0, 0⟩ [r1, r2]
        = ⟨(if 0 < (get_translatable_strings r2).1.length
            then [(c, (get_translatable_strings r2).1)] else []),
           (get_translatable_strings r2).1.length, 0⟩ := by
      rw [show List.foldl load_step (⟨[], 0, 0⟩ : LoadAcc) [r1, r2]
          = load_step (load_step ⟨[], 0, 0⟩ r1) r2 from rfl, hs1, hs2]
    exact ⟨by rw [load_translatable_dict, hfold],
           by rw [load_loop_warnings, hfold]⟩

/-- C8, witness: two concrete records sharing code `c`, the first with one
whitelisted field — one duplicate warning, the first record wins. -/
theorem C8_amended_duplicate_codes_witness :
    (([(codeKey, "c"), ("name", "y")] : Record).lookup codeKey = some "c")
    ∧ (([(codeKey, "c"), ("name", "x")] : Record).lookup codeKey = some "c")
    ∧ (check_duplicate_codes
        [[(codeKey, "c"), ("name", "y")], [(codeKey, "c"), ("name", "x")]] = 1
      ∧ (0 < (get_translatable_strings
            [(codeKey, "c"), ("name", "y")]).1.length →
          load_translatable_dict
            [[(codeKey, "c"), ("name", "y")], [(codeKey, "c"), ("name", "x")]]
            = ([(some "c",
                (get_translatable_strings [(codeKey, "c"), ("name", "y")]).1)],
               (get_translatable_strings
                 [(codeKey, "c"), ("name", "y")]).1.length)
          ∧ load_loop_warnings
              [[(codeKey, "c"), ("name", "y")],
               [(codeKey, "c"), ("name", "x")]] = 1)
      ∧ ((get_translatable_strings [(codeKey, "c"), ("name", "y")]).1 = [] →
          load_translatable_dict
            [[(codeKey, "c"), ("name", "y")], [(codeKey, "c"), ("name", "x")]]
            = ((if 0 < (get_translatable_strings
                  [(codeKey, "c"), ("name", "x")]).1.length
                then [(some "c", (get_translatable_strings
                  [(codeKey, "c"), ("name", "x")]).1)] else []),
               (get_translatable_strings
                 [(codeKey, "c"), ("name", "x")]).1.length)
          ∧ load_loop_warnings
              [[(codeKey, "c"), ("name", "y")],
               [(codeKey, "c"), ("name", "x")]] = 0)) :=
  ⟨rfl, rfl,
   C8_amended_duplicate_codes [(codeKey, "c"), ("name", "y")]
     [(codeKey, "c"), ("name", "x")] (some "c") rfl rfl⟩

/-- C10, counterexample: in `c8Records` the record `{"code": "c"}` has zero
whitelisted fields, yet with an absent localized file the code `c` appears in
`missing` (carried there by the second record sharing the code),
contradicting `such a source code can never appear in missing or
untranslated`. -/
theorem C10_counterexample :
    compare_translations (.content c8Records) .absent .absent
      = some ⟨1, 0, [], [(some "c", [("name", "x")])]⟩
    ∧ (get_translatable_strings [(codeKey, "c")]).1 = []
    ∧ (some "c") ∈ ([(some "c", [("name", "x")])] : TransDict).map Prod.fst :=
  ⟨rfl, rfl, by decide⟩

/-- C10 (amended): every entry of a constructed field mapping has a non-empty
field dictionary; and when every source record carrying a given code has zero
whitelisted fields, that code is absent from the mapping and therefore — for
any localized and ignore dictionaries — never appears in `untranslated` or
`missing`. -/
theorem C10_amended_nonempty_entries (l : List Record) (i18nD igD : TransDict)
    (c : Code)
    (h : ∀ r ∈ l, r.lookup codeKey = c → (get_translatable_strings r).1 = []) :
    (∀ kv ∈ (load_translatable_dict l).1, 0 < kv.2.length)
    ∧ c ∉ (((load_translatable_dict l).1).map Prod.fst)
    ∧ c ∉ (((compare_core (load_translatable_dict l).1 i18nD igD
          (load_translatable_dict l).2).untranslated).map Prod.fst)
    ∧ c ∉ (((compare_core (load_translatable_dict l).1 i18nD igD
          (load_translatable_dict l).2).missing).map Prod.fst) := by
  have hkeys := load_not_mem_keys l c h
  refine ⟨?_, hkeys, ?_, ?_⟩
  · intro kv hkv
    obtain ⟨r, _, _, _, h3⟩ := load_mem l hkv
    exact h3
  · intro hc
    have hlk : ((load_translatable_dict l).1).lookup c = none :=
      lookup_eq_none_of_not_mem_keys hkeys
    have hst := compare_fold_lookup_stable igD c i18nD 0 []
      (load_translatable_dict l).1 hlk
    have e2 : (compare_core (load_translatable_dict l).1 i18nD igD
        (load_translatable_dict l).2).untranslated
        = (i18nD.foldl (compare_step igD)
            (0, [], (load_translatable_dict l).1)).2.1 := rfl
    rw [e2] at hc
    have hsome := lookup_isSome_of_mem_keys hc
    rw [hst] at hsome
    cases hsome
  · intro hc
    have hsub := compare_fold_missing_sublist igD i18nD
      (0, [], (load_translatable_dict l).1)
    have e3 : (compare_core (load_translatable_dict l).1 i18nD igD
        (load_translatable_dict l).2).missing
        = (i18nD.foldl (compare_step igD)
            (0, [], (load_translatable_dict l).1)).2.2 := rfl
    rw [e3] at hc
    exact hkeys ((hsub.map Prod.fst).subset hc)

/-! ### Exit status (C3) -/

theorem load_json_file_cases (raw : List Char) :
    load_json_file raw = .crash 0 1
    ∨ load_json_file raw = .ok 0 1 none
    ∨ (∃ j, load_json_file raw = .ok (0 + 0) 0 (some j))
    ∨ (∃ j, load_json_file raw = .ok 0 0 (some j)) := by
  rw [load_json_file]
  split
  · exact Or.inl rfl
  · split_ifs
    · exact Or.inr (Or.inl rfl)
    · exact Or.inr (Or.inr (Or.inl ⟨_, rfl⟩))
    · exact Or.inr (Or.inr (Or.inr ⟨_, rfl⟩))

theorem load_json_file_deltas (raw : List Char) :
    (∀ df dv, load_json_file raw = .crash df dv → df = 0 ∧ dv = 1)
    ∧ (∀ df dv d, load_json_file raw = .ok df dv d → df = 0) := by
  have hc := load_json_file_cases raw
  constructor
  · intro df dv h
    rcases hc with h1 | h1 | ⟨j, h1⟩ | ⟨j, h1⟩ <;> rw [h1] at h
    · injection h with a b
      exact ⟨a.symm, b.symm⟩
    · cases h
    · cases h
    · cases h
  · intro df dv d h
    rcases hc with h1 | h1 | ⟨j, h1⟩ | ⟨j, h1⟩ <;> rw [h1] at h
    · cases h
    · injection h with a _ _
      exact a.symm
    · injection h with a _ _
      exact a.symm
    · injection h with a _ _
      exact a.symm

theorem processFiles_formatting_zero (files : List (List Char)) :
    (processFiles files).1 = 0
    ∧ ((processFiles files).2.2 = true → 0 < (processFiles files).2.1) := by
  induction files with
  | nil => exact ⟨rfl, by intro h; cases h⟩
  | cons f fs ih =>
    rcases hl : load_json_file f with ⟨df, dv⟩ | ⟨df, dv, d⟩
    · obtain ⟨h1, h2⟩ := (load_json_file_deltas f).1 df dv hl
      have he : processFiles (f :: fs) = (df, dv, true) := by
        rw [processFiles, hl]
      rw [he]
      exact ⟨h1, fun _ => by dsimp only; omega⟩
    · have h1 := (load_json_file_deltas f).2 df dv d hl
      subst h1
      have he : processFiles (f :: fs)
          = (0 + (processFiles fs).1, dv + (processFiles fs).2.1,
             (processFiles fs).2.2) := by
        rw [processFiles, hl]
      rw [he]
      obtain ⟨ih1, ih2⟩ := ih
      refine ⟨by simp [ih1], ?_⟩
      dsimp only
      intro h
      have := ih2 h
      omega

/-- C3, counterexample: the raw file `1` is valid JSON whose canonical
rendering differs from the raw text, yet the process exits with status 0 —
the claimed formatting error never reaches the counter, because line 66
adds zero. -/
theorem C3_counterexample :
    main_exit [['1']] = 0
    ∧ json_loads ['1'] = some (.num 1)
    ∧ format_json (.num 1) ≠ ['1'] :=
  ⟨rfl, rfl, by decide⟩

/-- C3 (amended): the process exit status is 0 exactly when zero validation
errors were observed (equivalently, zero formatting and zero validation
errors — vacuously, because a raw text differing from the canonical
rendering increments the formatting counter by zero, so that counter is
always zero and formatting differences never affect the exit status). -/
theorem C3_amended_exit_status (files : List (List Char)) :
    (main_exit files = 0
      ↔ (processFiles files).1 = 0 ∧ (processFiles files).2.1 = 0)
    ∧ (processFiles files).1 = 0 := by
  obtain ⟨hF, hV⟩ := processFiles_formatting_zero files
  refine ⟨?_, hF⟩
  rw [main_exit]
  rcases hc : (processFiles files).2.2 with _ | _
  · simp only [hc, Bool.false_eq_true, if_false]
    by_cases h : (processFiles files).1 = 0 ∧ (processFiles files).2.1 = 0
    · simp [h]
    · simp only [if_neg h]
      constructor
      · intro h1; cases h1
      · intro h1; exact absurd h1 h
  · have := hV hc
    simp only [hc, if_true]
    constructor
    · intro h1; cases h1
    · intro h1; omega

/-! ### Round trip and idempotence (C4, C5): counterexamples -/

/-- C4, counterexample: the value `"’"` (a string holding one curly
apostrophe) parses back from its canonical rendering as `"'"` — the
formatter rewrites the character, so `parse(format(x))` is not structurally
equal to `x` (there is no key order involved: `sortNorm` fixes both
values). -/
theorem C4_counterexample :
    json_loads (format_json (.str [Char.ofNat 0x2019]))
      = some (.str [Char.ofNat 39])
    ∧ sortNorm (.str [Char.ofNat 0x2019]) = .str [Char.ofNat 0x2019]
    ∧ Json.str [Char.ofNat 39] ≠ Json.str [Char.ofNat 0x2019] := by
  refine ⟨rfl, rfl, ?_⟩
  intro h
  injection h with h
  exact absurd h (by decide)

/-- C5, counterexample: for the string value `"a␣␣\n"` one replacement pass
removes a single space before the escape `\n`; re-parsing and re-formatting
the output removes another, so applying the formatter to its own output does
not reproduce it. -/
theorem C5_counterexample :
    json_loads (format_json (.str ['a', ' ', ' ', '\n']))
      = some (.str ['a', ' ', '\n'])
    ∧ format_json (.str ['a', ' ', '\n'])
        ≠ format_json (.str ['a', ' ', ' ', '\n']) :=
  ⟨rfl, by decide⟩

/-- C4 (amended): for every value whose canonical dump is left unchanged by
the replacement chain of `format_json` (`CleanJson`), parsing the formatted
text returns exactly the recursively key-sorted normal form of the value, and
in particular the value itself whenever it is already key-sorted. -/
theorem C4_amended_semantic_round_trip (x : Json) (h : CleanJson x) :
    json_loads (format_json x) = some (sortNorm x)
    ∧ (sortNorm x = x → json_loads (format_json x) = some x) := by
  refine ⟨format_parse x h, ?_⟩
  intro hx
  rw [format_parse x h, hx]

/-- C4 witness: a two-field object with keys out of order is clean, and
parsing its formatted text returns the key-sorted object. -/
theorem C4_amended_semantic_round_trip_witness :
    CleanJson (Json.obj [(['b'], Json.num 2), (['a'], Json.num 1)])
    ∧ (json_loads (format_json
          (Json.obj [(['b'], Json.num 2), (['a'], Json.num 1)]))
        = some (sortNorm (Json.obj [(['b'], Json.num 2), (['a'], Json.num 1)]))
      ∧ (sortNorm (Json.obj [(['b'], Json.num 2), (['a'], Json.num 1)])
            = Json.obj [(['b'], Json.num 2), (['a'], Json.num 1)]
        → json_loads (format_json
              (Json.obj [(['b'], Json.num 2), (['a'], Json.num 1)]))
            = some (Json.obj [(['b'], Json.num 2), (['a'], Json.num 1)]))) :=
  ⟨rfl, C4_amended_semantic_round_trip _ rfl⟩

/-- C5 (amended): for every value whose canonical dump is left unchanged by
the replacement chain of `format_json` (`CleanJson`), formatting is
idempotent at the file level: re-parsing the formatted text yields the
key-sorted normal form, and formatting that parse result reproduces the very
same text. -/
theorem C5_amended_format_idempotent (x : Json) (h : CleanJson x) :
    json_loads (format_json x) = some (sortNorm x)
    ∧ format_json (sortNorm x) = format_json x :=
  ⟨format_parse x h, format_json_sortNorm x⟩

/-- C5 witness: a clean two-element array; parsing its formatted text and
re-formatting reproduces the same text. -/
theorem C5_amended_format_idempotent_witness :
    CleanJson (Json.arr [Json.num 10, Json.str ['h', 'i']])
    ∧ (json_loads (format_json (Json.arr [Json.num 10, Json.str ['h', 'i']]))
        = some (sortNorm (Json.arr [Json.num 10, Json.str ['h', 'i']]))
      ∧ format_json (sortNorm (Json.arr [Json.num 10, Json.str ['h', 'i']]))
          = format_json (Json.arr [Json.num 10, Json.str ['h', 'i']])) :=
  ⟨rfl, C5_amended_format_idempotent _ rfl⟩

/-- C10, witness: a single record with code `x` and no whitelisted fields;
the code appears nowhere in the mapping, untranslated or missing. -/
theorem C10_amended_nonempty_entries_witness :
    (∀ r ∈ ([[(codeKey, "x")]] : List Record),
      r.lookup codeKey = some "x" → (get_translatable_strings r).1 = [])
    ∧ ((∀ kv ∈ (load_translatable_dict [[(codeKey, "x")]]).1,
          0 < kv.2.length)
      ∧ (some "x") ∉ (((load_translatable_dict [[(codeKey, "x")]]).1).map
          Prod.fst)
      ∧ (some "x") ∉ (((compare_core
            (load_translatable_dict [[(codeKey, "x")]]).1 [] []
            (load_translatable_dict [[(codeKey, "x")]]).2).untranslated).map
          Prod.fst)
      ∧ (some "x") ∉ (((compare_core
            (load_translatable_dict [[(codeKey, "x")]]).1 [] []
            (load_translatable_dict [[(codeKey, "x")]]).2).missing).map
          Prod.fst)) :=
  ⟨by decide,
   C10_amended_nonempty_entries [[(codeKey, "x")]] [] [] (some "x")
     (by decide)⟩

end I18n

